import Mathlib

/-!
Shallow embedding of the convert-mappings repository
(src/src/convert_mappings/ccdi_liftover.py and the scripts), together
with proofs about the claims of its specification.

Python dictionaries are modelled as association lists of key/value pairs
in insertion order: assignment to an existing key replaces the value in
place, assignment to a fresh key appends at the end, and lookup returns
the value at the first (unique, for genuine dicts) occurrence of the key.
-/

set_option synthInstance.maxSize 4096

namespace ConvertMappings

/-- One row of a liftover TSV table, with the six liftover columns
(constants OLD_NODE .. NEW_VER in ccdi_liftover.py). -/
structure Row where
  lift_from_node : String
  lift_from_property : String
  lift_from_version : String
  lift_to_node : String
  lift_to_property : String
  lift_to_version : String
deriving DecidableEq, Repr

/-- A mapping edge as built by extract_edges in ccdi_liftover.py: the
six string fields of the Python dict. -/
structure Edge where
  old_model : String
  old_node : String
  old_prop : String
  new_model : String
  new_node : String
  new_prop : String
deriving DecidableEq, Repr

/-- The Python dict entry "{old_prop: {Parents: old_node}}": a one-key
dict whose equality coincides with equality of the two strings. -/
structure PropEntry where
  source_prop : String
  parents : String
deriving DecidableEq, Repr

/-- Python exceptions that the embedded code can raise. -/
inductive PyErr where
  /-- KeyError: indexing a dict at an absent key. -/
  | keyError : PyErr
  /-- The ValueError "Source model ... not found in mapping file" raised
  by extract_pairwise_mappings; the error the spec calls
  MissingSourceModelError. -/
  | missingSourceModel : PyErr
  /-- TypeError: indexing a str with a str key (iterating a dict yields
  its keys, which are strings). -/
  | typeErrorStrIndex : PyErr
deriving DecidableEq, Repr

/-! ### Association-list model of Python dicts -/

/-- Dict lookup: value at the first occurrence of the key. -/
def dictGet {α : Type} : List (String × α) → String → Option α
  | [], _ => none
  | (k', v) :: rest, k => if k' = k then some v else dictGet rest k

/-- Dict assignment: replace in place if the key is present, append at
the end otherwise (Python insertion-order semantics). -/
def dictSet {α : Type} : List (String × α) → String → α → List (String × α)
  | [], k, v => [(k, v)]
  | (k', v') :: rest, k, v =>
      if k' = k then (k, v) :: rest else (k', v') :: dictSet rest k v

theorem dictGet_dictSet_self {α : Type} (l : List (String × α)) (k : String) (v : α) :
    dictGet (dictSet l k v) k = some v := by
  induction l with
  | nil => simp [dictGet, dictSet]
  | cons p rest ih =>
    obtain ⟨k₀, v₀⟩ := p
    by_cases h : k₀ = k
    · simp [dictSet, dictGet, h]
    · simp [dictSet, dictGet, h, ih]

theorem dictGet_dictSet_ne {α : Type} (l : List (String × α)) (k k' : String) (v : α)
    (h : k' ≠ k) : dictGet (dictSet l k v) k' = dictGet l k' := by
  have hk : k ≠ k' := Ne.symm h
  induction l with
  | nil => simp [dictGet, dictSet, hk]
  | cons p rest ih =>
    obtain ⟨k₀, v₀⟩ := p
    by_cases hpk : k₀ = k
    · subst hpk
      simp [dictSet, dictGet, hk]
    · by_cases hpk' : k₀ = k'
      · simp [dictSet, dictGet, hpk, hpk', h]
      · simp [dictSet, dictGet, hpk, hpk', ih]

theorem dictSet_of_dictGet_eq {α : Type} (l : List (String × α)) (k : String) (v : α)
    (h : dictGet l k = some v) : dictSet l k v = l := by
  induction l with
  | nil => simp [dictGet] at h
  | cons p rest ih =>
    obtain ⟨k₀, v₀⟩ := p
    by_cases hpk : k₀ = k
    · subst hpk
      simp [dictGet] at h
      simp [dictSet, h]
    · simp only [dictGet, if_neg hpk] at h
      simp [dictSet, hpk, ih h]

theorem mem_of_dictGet_eq_some {α : Type} (l : List (String × α)) (k : String) (v : α)
    (h : dictGet l k = some v) : (k, v) ∈ l := by
  induction l with
  | nil => simp [dictGet] at h
  | cons p rest ih =>
    obtain ⟨k₀, v₀⟩ := p
    by_cases hpk : k₀ = k
    · subst hpk
      simp [dictGet] at h
      simp [h]
    · simp only [dictGet, if_neg hpk] at h
      exact List.mem_cons_of_mem _ (ih h)

theorem dictGet_of_mem_nodup {α : Type} (l : List (String × α)) (k : String) (v : α)
    (hnd : (l.map Prod.fst).Nodup) (hmem : (k, v) ∈ l) : dictGet l k = some v := by
  induction l with
  | nil => simp at hmem
  | cons p rest ih =>
    obtain ⟨k₀, v₀⟩ := p
    simp only [List.map_cons, List.nodup_cons] at hnd
    rcases List.mem_cons.mp hmem with h | h
    · rw [show k₀ = k from congrArg Prod.fst h.symm,
        show v₀ = v from congrArg Prod.snd h.symm]
      simp [dictGet]
    · have hk : k₀ ≠ k := by
        intro hc
        subst hc
        exact hnd.1 (List.mem_map_of_mem Prod.fst h)
      simp [dictGet, hk, ih hnd.2 h]

theorem isSome_dictGet_dictSet {α : Type} (l : List (String × α)) (k k' : String) (v : α)
    (h : (dictGet l k').isSome) : (dictGet (dictSet l k v) k').isSome := by
  by_cases hk : k' = k
  · subst hk
    simp [dictGet_dictSet_self]
  · rwa [dictGet_dictSet_ne _ _ _ _ hk]

theorem mem_dictSet {α : Type} (l : List (String × α)) (k : String) (v : α) (q : String × α)
    (hq : q ∈ dictSet l k v) : q = (k, v) ∨ q ∈ l := by
  induction l with
  | nil =>
    simp only [dictSet, List.mem_singleton] at hq
    exact Or.inl hq
  | cons p rest ih =>
    obtain ⟨k₀, v₀⟩ := p
    by_cases hpk : k₀ = k
    · simp only [dictSet, if_pos hpk] at hq
      rcases List.mem_cons.mp hq with h | h
      · exact Or.inl h
      · exact Or.inr (List.mem_cons_of_mem _ h)
    · simp only [dictSet, if_neg hpk] at hq
      rcases List.mem_cons.mp hq with h | h
      · exact Or.inr (h ▸ List.mem_cons_self _ _)
      · rcases ih h with h' | h'
        · exact Or.inl h'
        · exact Or.inr (List.mem_cons_of_mem _ h')

theorem keys_dictSet_nodup {α : Type} (l : List (String × α)) (k : String) (v : α)
    (hnd : (l.map Prod.fst).Nodup) : ((dictSet l k v).map Prod.fst).Nodup := by
  induction l with
  | nil => simp [dictSet]
  | cons p rest ih =>
    obtain ⟨k₀, v₀⟩ := p
    simp only [List.map_cons, List.nodup_cons] at hnd
    by_cases hpk : k₀ = k
    · simp only [dictSet, if_pos hpk, List.map_cons, List.nodup_cons]
      exact ⟨hpk ▸ hnd.1, hnd.2⟩
    · simp only [dictSet, if_neg hpk, List.map_cons, List.nodup_cons]
      refine ⟨?_, ih hnd.2⟩
      intro hc
      rcases List.mem_map.mp hc with ⟨q, hq, hq1⟩
      rcases mem_dictSet rest k v q hq with h | h
      · subst h
        exact hpk hq1.symm
      · exact hnd.1 (hq1 ▸ List.mem_map_of_mem Prod.fst h)

/-! ### Edge helpers and build_chains (ccdi_liftover.py, lines 104-168) -/

/-- The source triple (old_model, old_node, old_prop) of an edge. -/
def srcTriple (e : Edge) : String × String × String :=
  (e.old_model, e.old_node, e.old_prop)

/-- The destination triple (new_model, new_node, new_prop) of an edge. -/
def destTriple (e : Edge) : String × String × String :=
  (e.new_model, e.new_node, e.new_prop)

/-- dest_keys: destination triples of all edges whose destination is
fully mapped (all three destination fields non-empty), as in lines
119-123 of ccdi_liftover.py; the Python set is modelled by list
membership. -/
def dest_keys (edges : List Edge) : List (String × String × String) :=
  (edges.filter fun e =>
    e.new_model ≠ "" && e.new_node ≠ "" && e.new_prop ≠ "").map destTriple

/-- starting_edges: edges whose source triple is never a (fully mapped)
destination, lines 126-130. -/
def starting_edges (edges : List Edge) : List Edge :=
  edges.filter fun e => !(dest_keys edges).contains (srcTriple e)

/-- The next(...) generator expression of lines 145-152: the first edge
whose source triple equals the given key, if any. -/
def findNext (edges : List Edge) (key : String × String × String) : Option Edge :=
  edges.find? fun e => srcTriple e == key

/-- The while-True walk of lines 140-157, indexed by fuel since the
Python loop has no termination guarantee; a result of none for every
fuel value models divergence of the loop.  Returns the built chain
together with the final value of the variable current. -/
def walk (edges : List Edge) : Nat → Edge → List Edge → Option (List Edge × Edge)
  | 0, _, _ => none
  | fuel + 1, current, chain =>
    if current.new_node = "" || current.new_prop = "" then some (chain, current)
    else
      match findNext edges (destTriple current) with
      | some e => walk edges fuel e (chain ++ [e])
      | none => some (chain, current)

/-- The condition of lines 159-163 classifying a finished chain as
complete. -/
def isCompleteLast (linking_model : String) (last : Edge) : Bool :=
  last.new_model == linking_model && last.new_node ≠ "" && last.new_prop ≠ ""

/-- The for-loop of lines 137-166: walk each starting edge in order and
append its chain to complete_chains or conflict_chains. -/
def build_chains_from (edges : List Edge) (linking_model : String) (fuel : Nat) :
    List Edge → Option (List (List Edge) × List (List Edge))
  | [] => some ([], [])
  | s :: rest =>
    match walk edges fuel s [s] with
    | none => none
    | some (chain, last) =>
      match build_chains_from edges linking_model fuel rest with
      | none => none
      | some (cs, fs) =>
        if isCompleteLast linking_model last then some (chain :: cs, fs)
        else some (cs, chain :: fs)

/-- build_chains of ccdi_liftover.py, lines 104-168, fuel-indexed. -/
def build_chains (edges : List Edge) (linking_model : String) (fuel : Nat) :
    Option (List (List Edge) × List (List Edge)) :=
  build_chains_from edges linking_model fuel (starting_edges edges)

/-! ### The MDF mapping dict -/

/-- The mapping dict built by convert_df_to_map_dict and by main of
multiple_liftover_to_mdf.py.  Models maps a model name to its Version
string (the Python value is the one-key dict with key Version); Props is
the nested dict target_node to target_prop to source_model to entry
list; TBD, as produced by update_node_info, maps a source node name to
the full row that had no destination node. -/
structure MapDict where
  Source : String
  Models : List (String × String)
  Props : List (String × List (String × List (String × List PropEntry)))
  TBD : List (String × Row)
deriving DecidableEq, Repr

/-- Three-level lookup into Props: the entry list stored at
Props[target_node][target_prop][source_model], if every level exists. -/
def propsLookup (d : MapDict) (tn tp mdl : String) : Option (List PropEntry) := do
  let np ← dictGet d.Props tn
  let mm ← dictGet np tp
  dictGet mm mdl

/-- HANDLE + "v" + version, the model-name construction of
update_model_info and extract_edges (HANDLE is the constant CCDI). -/
def modelName (ver : String) : String := "CCDI" ++ "v" ++ ver

/-! ### Single-table converter (ccdi_liftover.py, lines 27-81) -/

/-- update_model_info, lines 27-34: register both model/version pairs,
skipping names already present. -/
def update_model_info (row : Row) (d : MapDict) : MapDict :=
  let old_model := modelName row.lift_from_version
  let new_model := modelName row.lift_to_version
  let m1 := if (dictGet d.Models old_model).isSome then d.Models
    else dictSet d.Models old_model row.lift_from_version
  let m2 := if (dictGet m1 new_model).isSome then m1
    else dictSet m1 new_model row.lift_to_version
  { d with Models := m2 }

/-- update_node_info, lines 37-44: a row without destination node goes
to TBD keyed by its source node; otherwise the destination node key is
created in Props when absent. -/
def update_node_info (row : Row) (d : MapDict) : MapDict :=
  if row.lift_to_node = "" then
    { d with TBD := dictSet d.TBD row.lift_from_node row }
  else if (dictGet d.Props row.lift_to_node).isSome then d
  else { d with Props := dictSet d.Props row.lift_to_node [] }

/-- update_prop_info, lines 47-63.  When the destination node is empty
the function returns immediately.  Otherwise Python indexes
Props[new_node], a KeyError if that key is absent (update_node_info has
always created it before this call).  When new_prop is absent there,
Python stores the fresh dict with old_model mapped to the empty list and
then appends the entry when old_prop is truthy; the membership test
old_prop not-in list is against that fresh empty list and is vacuously
true (it compares a string against dict elements).  When new_prop is
already present nothing at all happens. -/
def update_prop_info (row : Row) (d : MapDict) : Except PyErr MapDict :=
  if row.lift_to_node = "" then .ok d
  else
    match dictGet d.Props row.lift_to_node with
    | none => .error .keyError
    | some nodeProps =>
      if (dictGet nodeProps row.lift_to_property).isSome then .ok d
      else
        let old_model := modelName row.lift_from_version
        let entries : List PropEntry :=
          if row.lift_from_property ≠ "" then
            [⟨row.lift_from_property, row.lift_from_node⟩]
          else []
        .ok { d with Props := (dictSet d.Props row.lift_to_node
          (dictSet nodeProps row.lift_to_property [(old_model, entries)])) }

/-- The per-row body of the loop in convert_df_to_map_dict, lines 74-77. -/
def convert_row_step (d : MapDict) (row : Row) : Except PyErr MapDict :=
  update_prop_info row (update_node_info row (update_model_info row d))

/-- The initial mapping dict of convert_df_to_map_dict, lines 68-73 (and
of main in multiple_liftover_to_mdf.py, lines 181-186). -/
def initMapDict (source_model : String) : MapDict :=
  { Source := source_model, Models := [], Props := [], TBD := [] }

/-- convert_df_to_map_dict, lines 66-81: fold every row of the table
into the initial dict. -/
def convert_df_to_map_dict (rows : List Row) (source_model : String) :
    Except PyErr MapDict :=
  rows.foldlM convert_row_step (initMapDict source_model)

/-! ### Assembler (update_mapping_dict, ccdi_liftover.py lines 171-209) -/

/-- model.split("v")[-1]: the last piece of the name split at v. -/
def versionOf (model : String) : String := (model.splitOn "v").getLastD ""

/-- The entry dict {old_prop: {Parents: old_node}} built from a chain
edge at line 195. -/
def chainEntry (e : Edge) : PropEntry := ⟨e.old_prop, e.old_node⟩

/-- Lines 203-209: register old_model and new_model of an edge in
Models when absent, with versions derived by split("v")[-1]. -/
def addModels (e : Edge) (models : List (String × String)) : List (String × String) :=
  let m1 := if (dictGet models e.old_model).isSome then models
    else dictSet models e.old_model (versionOf e.old_model)
  if (dictGet m1 e.new_model).isSome then m1
  else dictSet m1 e.new_model (versionOf e.new_model)

/-- The body of the for-loop at lines 193-209 for one edge of a chain:
read the current list at Props[tn][tp][old_model] (created empty when
absent), append the entry unless already present, and register the two
models.  The two outer keys have been created by lines 186-190, so the
getD defaults are never taken in calls from update_mapping_dict. -/
def addChainEdge (tn tp : String) (d : MapDict) (e : Edge) : MapDict :=
  let nodeProps := (dictGet d.Props tn).getD []
  let mm := (dictGet nodeProps tp).getD []
  let lst := (dictGet mm e.old_model).getD []
  let lst' := if lst.contains (chainEntry e) then lst else lst ++ [chainEntry e]
  let d' := { d with Props := (dictSet d.Props tn
    (dictSet nodeProps tp (dictSet mm e.old_model lst'))) }
  { d' with Models := addModels e d'.Models }

/-- Lines 186-187: create the target node key in Props when absent. -/
def ensureNode (tn : String) (d : MapDict) : MapDict :=
  if (dictGet d.Props tn).isSome then d
  else { d with Props := dictSet d.Props tn [] }

/-- Lines 189-190: create the target property key under the target node
when absent. -/
def ensureProp (tn tp : String) (d : MapDict) : MapDict :=
  let nodeProps := (dictGet d.Props tn).getD []
  if (dictGet nodeProps tp).isSome then d
  else { d with Props := (dictSet d.Props tn (dictSet nodeProps tp [])) }

/-- update_mapping_dict, lines 171-209.  chain[-1] raises IndexError on
an empty chain in Python; build_chains only ever produces chains that
contain at least their starting edge, and all theorems below restrict to
non-empty chains, so the empty case (returning the dict unchanged) is
never relied upon. -/
def update_mapping_dict (d : MapDict) (chain : List Edge) : MapDict :=
  match chain.getLast? with
  | none => d
  | some final_edge =>
    chain.foldl (addChainEdge final_edge.new_node final_edge.new_prop)
      (ensureProp final_edge.new_node final_edge.new_prop
        (ensureNode final_edge.new_node d))

/-- The assembly loop of main in multiple_liftover_to_mdf.py, lines
189-190: fold update_mapping_dict over the complete chains. -/
def assemble_chains (d : MapDict) (chains : List (List Edge)) : MapDict :=
  chains.foldl update_mapping_dict d

/-! ### Pairwise extractor (extract_pairwise_mappings, lines 221-278) -/

/-- The output row built at lines 247-254 from one stored entry. -/
def extractedRow (tn tp source_version linking_version : String)
    (en : PropEntry) : Row :=
  { lift_from_node := en.parents
    lift_from_property := en.source_prop
    lift_from_version := source_version
    lift_to_node := tn
    lift_to_property := tp
    lift_to_version := linking_version }

/-- extract_pairwise_mappings, lines 221-278.  The Models lookup for the
linking model at line 229 raises KeyError when the Source name is not a
Models key; the absence of the requested source model raises the
ValueError of line 233 (the MissingSourceModelError of the spec).  In
the Props loop the else-branch of lines 256-264 builds a placeholder row
and never appends it, so targets without the source model contribute
nothing.  The final loop at lines 266-276 iterates over the TBD dict,
which yields its keys: plain strings, so the first subscript
edge["old_model"] raises TypeError whenever TBD is non-empty. -/
def extract_pairwise_mappings (d : MapDict) (source_model : String) :
    Except PyErr (List Row) :=
  let linking_model := d.Source
  match dictGet d.Models linking_model with
  | none => .error .keyError
  | some linking_version =>
    match dictGet d.Models source_model with
    | none => .error .missingSourceModel
    | some source_version =>
      let mappings := d.Props.flatMap fun p =>
        p.2.flatMap fun q =>
          match dictGet q.2 source_model with
          | some lst => lst.map (extractedRow p.1 q.1 source_version linking_version)
          | none => []
      match d.TBD with
      | [] => .ok mappings
      | _ :: _ => .error .typeErrorStrIndex

/-! ### Concrete inputs used by individual claims -/

/-- A chain head reaching a two-edge cycle: cycHead feeds cycA, and
cycA and cycB feed each other. -/
def cycHead : Edge := ⟨"CCDIv0", "s", "q", "CCDIv1", "a", "pa"⟩

/-- First edge of the reachable cycle. -/
def cycA : Edge := ⟨"CCDIv1", "a", "pa", "CCDIv2", "b", "pb"⟩

/-- Second edge of the reachable cycle. -/
def cycB : Edge := ⟨"CCDIv2", "b", "pb", "CCDIv1", "a", "pa"⟩

/-- The fabricated cyclic edge set of claim C1: a cycle reachable from
the chain head cycHead. -/
def cycEdges : List Edge := [cycHead, cycA, cycB]

/-- A closed two-edge cycle with no head at all (claim C10 witness):
the destination of each edge is the source of the other. -/
def closedCycEdges : List Edge :=
  [⟨"CCDIv1", "n1", "p1", "CCDIv2", "n2", "p2"⟩,
   ⟨"CCDIv2", "n2", "p2", "CCDIv1", "n1", "p1"⟩]

/-! ### C1: the chain walk on a cycle reachable from a head -/

/-- Once the walk has entered the cycle it alternates between cycA and
cycB forever: no amount of fuel makes it return. -/
theorem walk_cycEdges_diverges (fuel : Nat) :
    ∀ chain, walk cycEdges fuel cycA chain = none ∧
      walk cycEdges fuel cycB chain = none := by
  induction fuel with
  | zero => intro chain; exact ⟨rfl, rfl⟩
  | succ n ih =>
    intro chain
    refine ⟨?_, ?_⟩
    · have hstep : walk cycEdges (n + 1) cycA chain =
          walk cycEdges n cycB (chain ++ [cycB]) := rfl
      rw [hstep]
      exact (ih (chain ++ [cycB])).2
    · have hstep : walk cycEdges (n + 1) cycB chain =
          walk cycEdges n cycA (chain ++ [cycA]) := rfl
      rw [hstep]
      exact (ih (chain ++ [cycA])).1

/-- C1: for the fabricated edge set whose cycle is reachable from a
chain head, the claim says the walk in build_chains terminates by
raising CycleDetected on revisiting a destination triple.  The code has
no visited-set and no CycleDetected error at all: the walk revisits the
triple (CCDIv1, a, pa) and loops forever.  In the fuel-indexed
embedding, no fuel value ever produces a result. -/
theorem c1_cycle_walk_diverges :
    ∀ fuel : Nat, build_chains cycEdges "CCDIv2" fuel = none := by
  intro fuel
  have hstart : starting_edges cycEdges = [cycHead] := rfl
  rw [build_chains, hstart]
  cases fuel with
  | zero => rfl
  | succ n =>
    have hw : walk cycEdges (n + 1) cycHead [cycHead] = none := by
      have hstep : walk cycEdges (n + 1) cycHead [cycHead] =
          walk cycEdges n cycA [cycHead, cycA] := rfl
      rw [hstep]
      exact (walk_cycEdges_diverges n [cycHead, cycA]).1
    simp [build_chains_from, hw]

/-! ### C10: cycle edges are never chain heads -/

/-- C10: an edge whose source triple is the fully-specified destination
triple of some edge is never a chain head; hence on an edge set forming
a closed cycle (every source triple is some fully-mapped destination
triple) build_chains returns with both chain lists empty and no edge of
the cycle appears in any chain. -/
theorem c10_closed_cycle_yields_nothing (edges : List Edge) (lm : String) (fuel : Nat)
    (hcyc : ∀ e ∈ edges, srcTriple e ∈ dest_keys edges) :
    (∀ e ∈ edges, e ∉ starting_edges edges) ∧
      starting_edges edges = [] ∧
      build_chains edges lm fuel = some ([], []) := by
  have hempty : starting_edges edges = [] := by
    rw [starting_edges, List.filter_eq_nil_iff]
    intro e he
    simp only [Bool.not_eq_true', Bool.not_eq_false]
    simpa using hcyc e he
  refine ⟨?_, hempty, ?_⟩
  · intro e _ hmem
    rw [hempty] at hmem
    exact absurd hmem (List.not_mem_nil e)
  · rw [build_chains, hempty]
    rfl

/-- Witness for C10 at the closed two-edge cycle. -/
theorem c10_closed_cycle_yields_nothing_witness :
    (∀ e ∈ closedCycEdges, e ∉ starting_edges closedCycEdges) ∧
      starting_edges closedCycEdges = [] ∧
      build_chains closedCycEdges "CCDIv1" 3 = some ([], []) :=
  c10_closed_cycle_yields_nothing closedCycEdges "CCDIv1" 3 (by decide)

/-! ### C3: classification of finished chains -/

/-- The walk returns the last element of the chain it built as the
final value of current. -/
theorem walk_getLast (edges : List Edge) :
    ∀ (fuel : Nat) (cur : Edge) (chain out : List Edge) (last : Edge),
      chain.getLast? = some cur → walk edges fuel cur chain = some (out, last) →
      out.getLast? = some last := by
  intro fuel
  induction fuel with
  | zero => intro cur chain out last _ hw; exact absurd hw (by simp [walk])
  | succ n ih =>
    intro cur chain out last hcur hw
    rw [walk] at hw
    by_cases hstop : (cur.new_node = "" || cur.new_prop = "") = true
    · rw [if_pos hstop] at hw
      obtain ⟨h1, h2⟩ := Prod.mk.injEq .. ▸ Option.some.injEq .. ▸ hw
      exact h1 ▸ h2 ▸ hcur
    · rw [if_neg hstop] at hw
      cases hfind : findNext edges (destTriple cur) with
      | some e =>
        rw [hfind] at hw
        exact ih e (chain ++ [e]) out last (List.getLast?_concat chain) hw
      | none =>
        rw [hfind] at hw
        obtain ⟨h1, h2⟩ := Prod.mk.injEq .. ▸ Option.some.injEq .. ▸ hw
        exact h1 ▸ h2 ▸ hcur

/-- Every chain emitted by the classification loop carries a last edge
that satisfies (for the complete list) or fails (for the conflicted
list) the completeness condition, and together the two lists account
for every starting edge. -/
theorem build_chains_from_classify (edges : List Edge) (lm : String) (fuel : Nat) :
    ∀ (starts : List Edge) (cs fs : List (List Edge)),
      build_chains_from edges lm fuel starts = some (cs, fs) →
      (∀ c ∈ cs, ∃ last, c.getLast? = some last ∧ isCompleteLast lm last = true) ∧
        (∀ c ∈ fs, ∃ last, c.getLast? = some last ∧ isCompleteLast lm last = false) ∧
        cs.length + fs.length = starts.length := by
  intro starts
  induction starts with
  | nil =>
    intro cs fs h
    rw [build_chains_from] at h
    obtain ⟨h1, h2⟩ := Prod.mk.injEq .. ▸ Option.some.injEq .. ▸ h
    subst h1; subst h2
    exact ⟨by simp, by simp, rfl⟩
  | cons s rest ih =>
    intro cs fs h
    rw [build_chains_from] at h
    cases hw : walk edges fuel s [s] with
    | none => rw [hw] at h; exact absurd h (by simp)
    | some pr =>
      obtain ⟨chain, last⟩ := pr
      rw [hw] at h
      cases hrec : build_chains_from edges lm fuel rest with
      | none => rw [hrec] at h; exact absurd h (by simp)
      | some pr' =>
        obtain ⟨cs', fs'⟩ := pr'
        rw [hrec] at h
        dsimp only at h
        obtain ⟨hcs', hfs', hlen⟩ := ih cs' fs' hrec
        have hlast : chain.getLast? = some last :=
          walk_getLast edges fuel s [s] chain last rfl hw
        by_cases hcl : isCompleteLast lm last = true
        · rw [if_pos hcl] at h
          obtain ⟨h1, h2⟩ := Prod.mk.injEq .. ▸ Option.some.injEq .. ▸ h
          subst h1; subst h2
          refine ⟨?_, hfs', by simp only [List.length_cons]; omega⟩
          intro c hc
          rcases List.mem_cons.mp hc with hc | hc
          · subst hc; exact ⟨last, hlast, hcl⟩
          · exact hcs' c hc
        · rw [if_neg hcl] at h
          obtain ⟨h1, h2⟩ := Prod.mk.injEq .. ▸ Option.some.injEq .. ▸ h
          subst h1; subst h2
          refine ⟨hcs', ?_, by simp only [List.length_cons]; omega⟩
          intro c hc
          rcases List.mem_cons.mp hc with hc | hc
          · subst hc; exact ⟨last, hlast, Bool.not_eq_true _ ▸ hcl⟩
          · exact hfs' c hc

/-- C3: whenever build_chains returns, a finished chain is placed in
the complete list exactly when the final edge of the chain has
new_model equal to the linking model and non-empty new_node and
new_prop (the condition isCompleteLast); every other finished chain
goes to the conflicted list, and the two lists exhaust the walked
starting edges. -/
theorem c3_complete_iff_final_edge_reaches_anchor (edges : List Edge) (lm : String)
    (fuel : Nat) (cs fs : List (List Edge))
    (h : build_chains edges lm fuel = some (cs, fs)) :
    (∀ c ∈ cs, ∃ last, c.getLast? = some last ∧ isCompleteLast lm last = true) ∧
      (∀ c ∈ fs, ∃ last, c.getLast? = some last ∧ isCompleteLast lm last = false) ∧
      cs.length + fs.length = (starting_edges edges).length :=
  build_chains_from_classify edges lm fuel (starting_edges edges) cs fs h

/-- The spec two-hop example: CCDIv1.7.2 to CCDIv1.9.1 to CCDIv2.1.0. -/
def hopEdge1 : Edge := ⟨"CCDIv1.7.2", "n1", "p1", "CCDIv1.9.1", "n2", "p2"⟩

/-- Second hop of the spec two-hop example. -/
def hopEdge2 : Edge := ⟨"CCDIv1.9.1", "n2", "p2", "CCDIv2.1.0", "n3", "p3"⟩

/-- A dangling edge that never reaches the anchor model. -/
def strayEdge : Edge := ⟨"CCDIv1.6.0", "m1", "q1", "CCDIv1.6.5", "m2", "q2"⟩

/-- Witness for C3 on the two-hop example plus a stray edge: one
complete chain of length two and one conflicted chain. -/
theorem c3_complete_iff_final_edge_reaches_anchor_witness :
    (∀ c ∈ [[hopEdge1, hopEdge2]], ∃ last, c.getLast? = some last ∧
        isCompleteLast "CCDIv2.1.0" last = true) ∧
      (∀ c ∈ [[strayEdge]], ∃ last, c.getLast? = some last ∧
        isCompleteLast "CCDIv2.1.0" last = false) ∧
      ([[hopEdge1, hopEdge2]] : List (List Edge)).length + ([[strayEdge]] : List (List Edge)).length =
        (starting_edges [hopEdge1, hopEdge2, strayEdge]).length :=
  c3_complete_iff_final_edge_reaches_anchor [hopEdge1, hopEdge2, strayEdge]
    "CCDIv2.1.0" 10 [[hopEdge1, hopEdge2]] [[strayEdge]] (by decide)

/-! ### C4: what update_prop_info does to Props -/

/-- First row of the C4 counterexample: maps (n1, p1) to (n2, p2). -/
def c4RowA : Row := ⟨"n1", "p1", "1", "n2", "p2", "2"⟩

/-- Second row of the C4 counterexample: maps (n1b, p1b) to the same
destination (n2, p2). -/
def c4RowB : Row := ⟨"n1b", "p1b", "1", "n2", "p2", "2"⟩

/-- Counterexample to C4 as stated: the second of two rows that share
the destination (n2, p2) has a non-empty source property p1b that is
not yet present for model CCDIv1, so the claim requires the entry
with source property p1b and parent n1b to be appended; after the
converter runs, the list under Props[n2][p2][CCDIv1] holds only the
entry from the first row. -/
theorem c4_counterexample :
    (convert_df_to_map_dict [c4RowA, c4RowB] "CCDIv2").map
        (fun g => propsLookup g "n2" "p2" "CCDIv1") =
      .ok (some [⟨"p1", "n1"⟩]) ∧
      (⟨"p1b", "n1b"⟩ : PropEntry) ∉ ([⟨"p1", "n1"⟩] : List PropEntry) :=
  ⟨rfl, by decide⟩

/-- C4 as amended: for a row with a non-empty destination node (and,
as update_node_info guarantees, a Props key for that node), the append
of the entry with the source property and parent node happens exactly
when Props[new_node][new_prop] did not exist before the row and the
source property is non-empty; when Props[new_node][new_prop] already
exists, update_prop_info changes nothing at all. -/
theorem c4_append_only_on_fresh_target (row : Row) (d : MapDict)
    (np : List (String × List (String × List PropEntry)))
    (hnode : row.lift_to_node ≠ "")
    (hprops : dictGet d.Props row.lift_to_node = some np) :
    ((dictGet np row.lift_to_property).isSome → update_prop_info row d = .ok d) ∧
      (dictGet np row.lift_to_property = none → row.lift_from_property ≠ "" →
        ∃ d', update_prop_info row d = .ok d' ∧
          propsLookup d' row.lift_to_node row.lift_to_property
              (modelName row.lift_from_version) =
            some [⟨row.lift_from_property, row.lift_from_node⟩]) := by
  constructor
  · intro hsome
    rw [update_prop_info, if_neg hnode, hprops]
    simp only [hsome, if_pos]
  · intro hnone hfp
    rw [update_prop_info, if_neg hnode, hprops]
    simp only [hnone, Option.isSome_none, Bool.false_eq_true, if_false, if_pos hfp]
    refine ⟨_, rfl, ?_⟩
    rw [propsLookup]
    simp only [dictGet_dictSet_self, Option.bind_eq_bind, Option.some_bind]
    simp [dictGet]

/-- Witness for C4 amended, on a dict already holding the target node
key with no property under it. -/
theorem c4_append_only_on_fresh_target_witness :
    ((dictGet ([] : List (String × List (String × List PropEntry))) "p2").isSome →
        update_prop_info c4RowA ⟨"CCDIv2", [], [("n2", [])], []⟩ =
          .ok ⟨"CCDIv2", [], [("n2", [])], []⟩) ∧
      (dictGet ([] : List (String × List (String × List PropEntry))) "p2" = none →
        "p1" ≠ "" →
        ∃ d', update_prop_info c4RowA ⟨"CCDIv2", [], [("n2", [])], []⟩ = .ok d' ∧
          propsLookup d' "n2" "p2" (modelName "1") = some [⟨"p1", "n1"⟩]) :=
  c4_append_only_on_fresh_target c4RowA ⟨"CCDIv2", [], [("n2", [])], []⟩ []
    (by decide) (by decide)

/-! ### C5: TBD entries during pairwise extraction -/

/-- The C5 failing row: no destination node, so the converter files it
under TBD keyed by its source node n1. -/
def c5Row : Row := ⟨"n1", "p1", "1", "", "", "2"⟩

/-- C5 fails on the code: the graph assembled from a single unmapped
row has a TBD entry originating from model CCDIv1 (modelName of version
1), and the claim requires the extraction for CCDIv1 to emit one row
with empty destination fields; instead the TBD loop of
extract_pairwise_mappings iterates the keys of the TBD dict, which are
strings, and the subscript with old_model raises TypeError. -/
theorem c5_tbd_rows_raise_type_error :
    ((convert_df_to_map_dict [c5Row] "CCDIv2").map MapDict.TBD = .ok [("n1", c5Row)]) ∧
      modelName c5Row.lift_from_version = "CCDIv1" ∧
      ((convert_df_to_map_dict [c5Row] "CCDIv2").bind
          (fun g => extract_pairwise_mappings g "CCDIv1") =
        .error .typeErrorStrIndex) :=
  ⟨rfl, rfl, rfl⟩

/-! ### C6: MissingSourceModelError iff the source model is absent -/

/-- C6: provided the Models lookup of the Source (linking) model at the
top of extract_pairwise_mappings succeeds, the extraction fails with
the missing-source-model error exactly when the requested source model
is not a key of Models, and in that case no row list is ever
returned. -/
theorem c6_missing_source_model_iff_absent (d : MapDict) (m : String)
    (h : (dictGet d.Models d.Source).isSome) :
    (extract_pairwise_mappings d m = .error .missingSourceModel ↔
        dictGet d.Models m = none) ∧
      (dictGet d.Models m = none →
        ∀ rs : List Row, extract_pairwise_mappings d m ≠ .ok rs) := by
  obtain ⟨lv, hlv⟩ := Option.isSome_iff_exists.mp h
  have hunfold : ∀ r, extract_pairwise_mappings d m = r ↔
      (match dictGet d.Models m with
        | none => Except.error PyErr.missingSourceModel
        | some source_version =>
          let mappings := d.Props.flatMap fun p =>
            p.2.flatMap fun q =>
              match dictGet q.2 m with
              | some lst => lst.map (extractedRow p.1 q.1 source_version lv)
              | none => []
          match d.TBD with
          | [] => Except.ok mappings
          | _ :: _ => Except.error PyErr.typeErrorStrIndex) = r := by
    intro r
    rw [extract_pairwise_mappings, hlv]
  constructor
  · rw [hunfold]
    cases hm : dictGet d.Models m with
    | none => simp
    | some sv =>
      simp only
      cases d.TBD with
      | nil => simp
      | cons p rest => simp
  · intro hm rs hcontra
    have h2 := (hunfold (Except.ok rs)).mp hcontra
    rw [hm] at h2
    simp at h2

/-- A graph whose Models hold only the linking model CCDIv2. -/
def c6Graph : MapDict := ⟨"CCDIv2", [("CCDIv2", "2")], [], []⟩

/-- Witness for C6: requesting the absent model CCDIv1 from c6Graph. -/
theorem c6_missing_source_model_iff_absent_witness :
    (extract_pairwise_mappings c6Graph "CCDIv1" = .error .missingSourceModel ↔
        dictGet c6Graph.Models "CCDIv1" = none) ∧
      (dictGet c6Graph.Models "CCDIv1" = none →
        ∀ rs : List Row, extract_pairwise_mappings c6Graph "CCDIv1" ≠ .ok rs) :=
  c6_missing_source_model_iff_absent c6Graph "CCDIv1" (by decide)

/-! ### C8: targets without the source model emit no row -/

/-- C8: when extraction succeeds on a graph whose Props keys are
genuine dict keys (no duplicates at either level), no output row points
at a (target_node, target_prop) whose per-model map lacks the source
model, and every output row is derived from a stored entry of a target
that does list the source model.  Successful extraction also forces TBD
to be empty, so the TBD-derived rows of the claim are exactly the
(empty) remainder of the output. -/
theorem c8_no_row_for_target_missing_model (d : MapDict) (m : String) (out : List Row)
    (hnd1 : (d.Props.map Prod.fst).Nodup)
    (hnd2 : ∀ p ∈ d.Props, (p.2.map Prod.fst).Nodup)
    (hok : extract_pairwise_mappings d m = .ok out) :
    (∀ tn np tp mm, dictGet d.Props tn = some np → dictGet np tp = some mm →
        dictGet mm m = none →
        ∀ r ∈ out, ¬(r.lift_to_node = tn ∧ r.lift_to_property = tp)) ∧
      (∀ r ∈ out, ∃ tn np tp mm lst, dictGet d.Props tn = some np ∧
        dictGet np tp = some mm ∧ dictGet mm m = some lst ∧
        ∃ en ∈ lst, r.lift_to_node = tn ∧ r.lift_to_property = tp ∧
          r.lift_from_node = en.parents ∧ r.lift_from_property = en.source_prop) := by
  rw [extract_pairwise_mappings] at hok
  cases hl : dictGet d.Models d.Source with
  | none => rw [hl] at hok; exact absurd hok (by simp)
  | some lv =>
    rw [hl] at hok
    cases hs : dictGet d.Models m with
    | none => rw [hs] at hok; exact absurd hok (by simp)
    | some sv =>
      rw [hs] at hok
      dsimp only at hok
      cases htbd : d.TBD with
      | cons p rest => rw [htbd] at hok; exact absurd hok (by simp)
      | nil =>
        rw [htbd] at hok
        have hout : out = d.Props.flatMap fun p =>
            p.2.flatMap fun q =>
              match dictGet q.2 m with
              | some lst => lst.map (extractedRow p.1 q.1 sv lv)
              | none => [] := by
          exact (Except.ok.injEq .. ▸ hok).symm
        have hsrc : ∀ r ∈ out, ∃ p, p ∈ d.Props ∧ ∃ q, q ∈ p.2 ∧
            ∃ lst, dictGet q.2 m = some lst ∧
            ∃ en ∈ lst, r = extractedRow p.1 q.1 sv lv en := by
          intro r hr
          rw [hout] at hr
          rcases List.mem_flatMap.mp hr with ⟨p, hp, hrp⟩
          rcases List.mem_flatMap.mp hrp with ⟨q, hq, hrq⟩
          cases hget : dictGet q.2 m with
          | none => rw [hget] at hrq; exact absurd hrq (by simp)
          | some lst =>
            rw [hget] at hrq
            rcases List.mem_map.mp hrq with ⟨en, hen, hren⟩
            exact ⟨p, hp, q, hq, lst, hget, en, hen, hren.symm⟩
        constructor
        · intro tn np tp mm hnp hmm hnone r hr ⟨htn, htp⟩
          rcases hsrc r hr with ⟨p, hp, q, hq, lst, hget, en, _, hren⟩
          have hrtn : r.lift_to_node = p.1 := by rw [hren]; rfl
          have hrtp : r.lift_to_property = q.1 := by rw [hren]; rfl
          have hp1 : p.1 = tn := by rw [← hrtn, htn]
          have hq1 : q.1 = tp := by rw [← hrtp, htp]
          have hnp' : dictGet d.Props p.1 = some p.2 :=
            dictGet_of_mem_nodup d.Props p.1 p.2 hnd1 hp
          rw [hp1, hnp] at hnp'
          have hnpeq : np = p.2 := by
            injection hnp'
          have hmm' : dictGet p.2 q.1 = some q.2 :=
            dictGet_of_mem_nodup p.2 q.1 q.2 (hnd2 p hp) hq
          rw [hq1, ← hnpeq, hmm] at hmm'
          have hmmeq : mm = q.2 := by
            injection hmm'
          rw [← hmmeq] at hget
          rw [hget] at hnone
          exact absurd hnone (by simp)
        · intro r hr
          rcases hsrc r hr with ⟨p, hp, q, hq, lst, hget, en, hen, hren⟩
          refine ⟨p.1, p.2, q.1, q.2, lst,
            dictGet_of_mem_nodup d.Props p.1 p.2 hnd1 hp,
            dictGet_of_mem_nodup p.2 q.1 q.2 (hnd2 p hp) hq,
            hget, en, hen, ?_, ?_, ?_, ?_⟩ <;> rw [hren] <;> rfl

/-- A graph with one target listing CCDIv1 and one target that lists
only the unrelated model CCDIv9. -/
def c8Graph : MapDict :=
  ⟨"CCDIv2", [("CCDIv2", "2"), ("CCDIv1", "1")],
    [("n3", [("p3", [("CCDIv1", [⟨"p1", "n1"⟩])])]),
     ("n4", [("p4", [("CCDIv9", [⟨"pX", "nX"⟩])])])], []⟩

/-- Witness for C8: extraction from c8Graph for CCDIv1 yields exactly
the row derived from the n3/p3 target; nothing refers to n4/p4. -/
theorem c8_no_row_for_target_missing_model_witness :
    (∀ tn np tp mm, dictGet c8Graph.Props tn = some np → dictGet np tp = some mm →
        dictGet mm "CCDIv1" = none →
        ∀ r ∈ [Row.mk "n1" "p1" "1" "n3" "p3" "2"],
          ¬(r.lift_to_node = tn ∧ r.lift_to_property = tp)) ∧
      (∀ r ∈ [Row.mk "n1" "p1" "1" "n3" "p3" "2"],
        ∃ tn np tp mm lst, dictGet c8Graph.Props tn = some np ∧
        dictGet np tp = some mm ∧ dictGet mm "CCDIv1" = some lst ∧
        ∃ en ∈ lst, r.lift_to_node = tn ∧ r.lift_to_property = tp ∧
          r.lift_from_node = en.parents ∧ r.lift_from_property = en.source_prop) :=
  c8_no_row_for_target_missing_model c8Graph "CCDIv1"
    [Row.mk "n1" "p1" "1" "n3" "p3" "2"] (by decide) (by decide) rfl

/-! ### C7: assembling the same chains twice changes nothing -/

/-- The dict at Props[tn][tp][mdl] exists and holds the entry en. -/
def hasEntry (d : MapDict) (tn tp mdl : String) (en : PropEntry) : Prop :=
  ∃ np, dictGet d.Props tn = some np ∧ ∃ mm, dictGet np tp = some mm ∧
    ∃ lst, dictGet mm mdl = some lst ∧ en ∈ lst

/-- Both endpoint models of an edge are registered in Models. -/
def hasModels (d : MapDict) (e : Edge) : Prop :=
  (dictGet d.Models e.old_model).isSome ∧ (dictGet d.Models e.new_model).isSome

/-- All the content that update_mapping_dict would write for this chain
is already present in the dict. -/
def containsChain (d : MapDict) (chain : List Edge) : Prop :=
  ∀ fe, chain.getLast? = some fe →
    ∀ e ∈ chain,
      hasEntry d fe.new_node fe.new_prop e.old_model (chainEntry e) ∧ hasModels d e

theorem mem_of_getLast?_eq_some {α : Type} (l : List α) (a : α)
    (h : l.getLast? = some a) : a ∈ l := by
  induction l with
  | nil => simp at h
  | cons x rest ih =>
    cases rest with
    | nil =>
      simp only [List.getLast?_singleton, Option.some.injEq] at h
      simp [h]
    | cons y rest' =>
      rw [List.getLast?_cons_cons] at h
      exact List.mem_cons_of_mem x (ih h)

theorem hasEntry_addChainEdge (d : MapDict) (tn tp mdl tn' tp' : String)
    (en : PropEntry) (e : Edge) (h : hasEntry d tn tp mdl en) :
    hasEntry (addChainEdge tn' tp' d e) tn tp mdl en := by
  obtain ⟨np, hnp, mm, hmm, lst, hlst, hen⟩ := h
  rw [addChainEdge]
  by_cases htn : tn = tn'
  · subst htn
    rw [hnp]
    simp only [Option.getD_some]
    refine ⟨_, dictGet_dictSet_self _ _ _, ?_⟩
    by_cases htp : tp = tp'
    · subst htp
      rw [hmm]
      simp only [Option.getD_some]
      refine ⟨_, dictGet_dictSet_self _ _ _, ?_⟩
      by_cases hm : mdl = e.old_model
      · subst hm
        rw [hlst]
        simp only [Option.getD_some]
        refine ⟨_, dictGet_dictSet_self _ _ _, ?_⟩
        by_cases hc : lst.contains (chainEntry e)
        · simp only [hc, if_pos]
          exact hen
        · simp only [hc, Bool.false_eq_true, if_false, if_neg]
          exact List.mem_append_left _ hen
      · exact ⟨lst, by rw [dictGet_dictSet_ne _ _ _ _ hm]; exact hlst, hen⟩
    · exact ⟨mm, by rw [dictGet_dictSet_ne _ _ _ _ htp]; exact hmm,
        lst, hlst, hen⟩
  · exact ⟨np, by rw [dictGet_dictSet_ne _ _ _ _ htn]; exact hnp,
      mm, hmm, lst, hlst, hen⟩

theorem models_addChainEdge (d : MapDict) (tn' tp' m : String) (e : Edge)
    (h : (dictGet d.Models m).isSome) :
    (dictGet (addChainEdge tn' tp' d e).Models m).isSome := by
  rw [addChainEdge, addModels]
  dsimp only
  by_cases h1 : (dictGet d.Models e.old_model).isSome
  · rw [if_pos h1]
    by_cases h2 : (dictGet d.Models e.new_model).isSome
    · rw [if_pos h2]; exact h
    · rw [if_neg h2]; exact isSome_dictGet_dictSet _ _ _ _ h
  · rw [if_neg h1]
    have h' := isSome_dictGet_dictSet d.Models e.old_model m
      (versionOf e.old_model) h
    by_cases h2 : (dictGet (dictSet d.Models e.old_model (versionOf e.old_model))
        e.new_model).isSome
    · rw [if_pos h2]; exact h'
    · rw [if_neg h2]; exact isSome_dictGet_dictSet _ _ _ _ h'

theorem hasEntry_ensureNode (d : MapDict) (tn tp mdl tn' : String) (en : PropEntry)
    (h : hasEntry d tn tp mdl en) : hasEntry (ensureNode tn' d) tn tp mdl en := by
  obtain ⟨np, hnp, rest⟩ := h
  rw [ensureNode]
  by_cases hp : (dictGet d.Props tn').isSome
  · rw [if_pos hp]; exact ⟨np, hnp, rest⟩
  · rw [if_neg hp]
    refine ⟨np, ?_, rest⟩
    by_cases htn : tn = tn'
    · subst htn
      rw [hnp] at hp
      exact absurd Option.isSome_some hp
    · rw [dictGet_dictSet_ne _ _ _ _ htn]
      exact hnp

theorem hasEntry_ensureProp (d : MapDict) (tn tp mdl tn' tp' : String) (en : PropEntry)
    (h : hasEntry d tn tp mdl en) : hasEntry (ensureProp tn' tp' d) tn tp mdl en := by
  obtain ⟨np, hnp, mm, hmm, rest⟩ := h
  rw [ensureProp]
  by_cases hp : (dictGet ((dictGet d.Props tn').getD []) tp').isSome
  · rw [if_pos hp]; exact ⟨np, hnp, mm, hmm, rest⟩
  · rw [if_neg hp]
    by_cases htn : tn = tn'
    · subst htn
      rw [hnp]
      simp only [Option.getD_some]
      refine ⟨_, dictGet_dictSet_self _ _ _, mm, ?_, rest⟩
      by_cases htp : tp = tp'
      · subst htp
        rw [hnp] at hp
        simp only [Option.getD_some] at hp
        rw [hmm] at hp
        exact absurd Option.isSome_some hp
      · rw [dictGet_dictSet_ne _ _ _ _ htp]
        exact hmm
    · exact ⟨np, by rw [dictGet_dictSet_ne _ _ _ _ htn]; exact hnp, mm, hmm, rest⟩

theorem models_ensureNode (d : MapDict) (tn' m : String)
    (h : (dictGet d.Models m).isSome) :
    (dictGet (ensureNode tn' d).Models m).isSome := by
  rw [ensureNode]
  by_cases hp : (dictGet d.Props tn').isSome
  · rw [if_pos hp]; exact h
  · rw [if_neg hp]; exact h

theorem models_ensureProp (d : MapDict) (tn' tp' m : String)
    (h : (dictGet d.Models m).isSome) :
    (dictGet (ensureProp tn' tp' d).Models m).isSome := by
  rw [ensureProp]
  by_cases hp : (dictGet ((dictGet d.Props tn').getD []) tp').isSome
  · rw [if_pos hp]; exact h
  · rw [if_neg hp]; exact h

/-- Entry-presence and model-presence survive a whole
update_mapping_dict call for any other chain. -/
theorem hasEntry_update_mapping_dict (d : MapDict) (c' : List Edge)
    (tn tp mdl : String) (en : PropEntry) (m : String)
    (h1 : hasEntry d tn tp mdl en) (h2 : (dictGet d.Models m).isSome) :
    hasEntry (update_mapping_dict d c') tn tp mdl en ∧
      (dictGet (update_mapping_dict d c').Models m).isSome := by
  rw [update_mapping_dict]
  cases hl : c'.getLast? with
  | none => exact ⟨h1, h2⟩
  | some fe =>
    dsimp only
    have hbase : hasEntry (ensureProp fe.new_node fe.new_prop
        (ensureNode fe.new_node d)) tn tp mdl en :=
      hasEntry_ensureProp _ _ _ _ _ _ _ (hasEntry_ensureNode _ _ _ _ _ _ h1)
    have hbasem : (dictGet (ensureProp fe.new_node fe.new_prop
        (ensureNode fe.new_node d)).Models m).isSome :=
      models_ensureProp _ _ _ _ (models_ensureNode _ _ _ h2)
    generalize ensureProp fe.new_node fe.new_prop (ensureNode fe.new_node d) = d0
      at hbase hbasem
    clear hl h1 h2
    induction c' generalizing d0 with
    | nil => exact ⟨hbase, hbasem⟩
    | cons e rest ih =>
      rw [List.foldl_cons]
      exact ih _ (hasEntry_addChainEdge _ _ _ _ _ _ _ _ hbase)
        (models_addChainEdge _ _ _ _ _ hbasem)

theorem dictGet_dictSet {α : Type} (l : List (String × α)) (k : String) (v : α)
    (k' : String) :
    dictGet (dictSet l k v) k' = if k' = k then some v else dictGet l k' := by
  by_cases h : k' = k
  · subst h
    rw [if_pos rfl]
    exact dictGet_dictSet_self l k' v
  · rw [if_neg h]
    exact dictGet_dictSet_ne l k k' v h

theorem addModels_isSome (models : List (String × String)) (e : Edge) :
    (dictGet (addModels e models) e.old_model).isSome ∧
      (dictGet (addModels e models) e.new_model).isSome := by
  rw [addModels]
  have hold : ∀ m1 : List (String × String), (dictGet m1 e.old_model).isSome →
      (dictGet (if (dictGet m1 e.new_model).isSome then m1
        else dictSet m1 e.new_model (versionOf e.new_model)) e.old_model).isSome := by
    intro m1 h1
    by_cases h2 : (dictGet m1 e.new_model).isSome
    · rw [if_pos h2]; exact h1
    · rw [if_neg h2]; exact isSome_dictGet_dictSet _ _ _ _ h1
  have hnew : ∀ m1 : List (String × String),
      (dictGet (if (dictGet m1 e.new_model).isSome then m1
        else dictSet m1 e.new_model (versionOf e.new_model)) e.new_model).isSome := by
    intro m1
    by_cases h2 : (dictGet m1 e.new_model).isSome
    · rw [if_pos h2]; exact h2
    · rw [if_neg h2]
      rw [dictGet_dictSet_self]
      exact Option.isSome_some
  constructor
  · by_cases h1 : (dictGet models e.old_model).isSome
    · rw [if_pos h1]
      exact hold models h1
    · rw [if_neg h1]
      refine hold _ ?_
      rw [dictGet_dictSet_self]
      exact Option.isSome_some
  · by_cases h1 : (dictGet models e.old_model).isSome
    · rw [if_pos h1]
      exact hnew models
    · rw [if_neg h1]
      exact hnew _

theorem addChainEdge_establishes (d : MapDict) (tn tp : String) (e : Edge)
    (np : List (String × List (String × List PropEntry)))
    (hnp : dictGet d.Props tn = some np) (htp : (dictGet np tp).isSome) :
    (hasEntry (addChainEdge tn tp d e) tn tp e.old_model (chainEntry e) ∧
        hasModels (addChainEdge tn tp d e) e) ∧
      (∃ np', dictGet (addChainEdge tn tp d e).Props tn = some np' ∧
        (dictGet np' tp).isSome) := by
  obtain ⟨mm, hmm⟩ := Option.isSome_iff_exists.mp htp
  rw [addChainEdge]
  rw [hnp]
  simp only [Option.getD_some]
  rw [hmm]
  simp only [Option.getD_some]
  refine ⟨⟨⟨_, dictGet_dictSet_self _ _ _, _, dictGet_dictSet_self _ _ _,
      _, dictGet_dictSet_self _ _ _, ?_⟩, addModels_isSome _ e⟩,
    ⟨_, dictGet_dictSet_self _ _ _, ?_⟩⟩
  · by_cases hc : ((dictGet mm e.old_model).getD []).contains (chainEntry e)
    · rw [if_pos hc]
      exact List.mem_of_elem_eq_true hc
    · rw [if_neg hc]
      exact List.mem_append_right _ (List.mem_singleton.mpr rfl)
  · rw [dictGet_dictSet_self]
    exact Option.isSome_some

theorem foldl_addChainEdge_preserves (tn tp : String) (c : List Edge) :
    ∀ (d : MapDict) (tn0 tp0 mdl : String) (en : PropEntry) (m : String),
      hasEntry d tn0 tp0 mdl en → (dictGet d.Models m).isSome →
      hasEntry (c.foldl (addChainEdge tn tp) d) tn0 tp0 mdl en ∧
        (dictGet (c.foldl (addChainEdge tn tp) d).Models m).isSome := by
  induction c with
  | nil => intro d _ _ _ _ _ h1 h2; exact ⟨h1, h2⟩
  | cons e rest ih =>
    intro d tn0 tp0 mdl en m h1 h2
    rw [List.foldl_cons]
    exact ih _ tn0 tp0 mdl en m (hasEntry_addChainEdge _ _ _ _ _ _ _ _ h1)
      (models_addChainEdge _ _ _ _ _ h2)

theorem foldl_addChainEdge_establishes (tn tp : String) (c : List Edge) :
    ∀ (d : MapDict) (np : List (String × List (String × List PropEntry))),
      dictGet d.Props tn = some np → (dictGet np tp).isSome →
      (∀ e ∈ c, hasEntry (c.foldl (addChainEdge tn tp) d) tn tp e.old_model
          (chainEntry e) ∧ hasModels (c.foldl (addChainEdge tn tp) d) e) := by
  induction c with
  | nil => intro d np _ _ e he; exact absurd he (List.not_mem_nil e)
  | cons e0 rest ih =>
    intro d np hnp htp e he
    rw [List.foldl_cons]
    obtain ⟨hself, np', hnp', htp'⟩ := addChainEdge_establishes d tn tp e0 np hnp htp
    rcases List.mem_cons.mp he with he | he
    · subst he
      have hfold1 := foldl_addChainEdge_preserves tn tp rest _ tn tp e.old_model
        (chainEntry e) e.old_model hself.1 hself.2.1
      have hfold2 := foldl_addChainEdge_preserves tn tp rest _ tn tp e.old_model
        (chainEntry e) e.new_model hself.1 hself.2.2
      exact ⟨hfold1.1, hfold1.2, hfold2.2⟩
    · exact ih _ _ hnp' htp' e he

theorem ensure_target (d : MapDict) (tn tp : String) :
    ∃ np, dictGet (ensureProp tn tp (ensureNode tn d)).Props tn = some np ∧
      (dictGet np tp).isSome := by
  obtain ⟨np0, hnp0⟩ : ∃ np0, dictGet (ensureNode tn d).Props tn = some np0 := by
    rw [ensureNode]
    by_cases hp : (dictGet d.Props tn).isSome
    · rw [if_pos hp]
      exact Option.isSome_iff_exists.mp hp
    · rw [if_neg hp]
      exact ⟨[], dictGet_dictSet_self _ _ _⟩
  rw [ensureProp, hnp0]
  simp only [Option.getD_some]
  by_cases hp : (dictGet np0 tp).isSome
  · rw [if_pos hp]
    exact ⟨np0, hnp0, hp⟩
  · rw [if_neg hp]
    refine ⟨_, dictGet_dictSet_self _ _ _, ?_⟩
    rw [dictGet_dictSet_self]
    exact Option.isSome_some

theorem update_mapping_dict_establishes (d : MapDict) (c : List Edge) :
    containsChain (update_mapping_dict d c) c := by
  intro fe hfe e he
  rw [update_mapping_dict, hfe]
  obtain ⟨np, hnp, htp⟩ := ensure_target d fe.new_node fe.new_prop
  exact foldl_addChainEdge_establishes fe.new_node fe.new_prop c _ np hnp htp e he

theorem containsChain_update_mapping_dict (d : MapDict) (c c' : List Edge)
    (h : containsChain d c) : containsChain (update_mapping_dict d c') c := by
  intro fe hfe e he
  have hE := (h fe hfe e he).1
  have hMo := (h fe hfe e he).2.1
  have hMn := (h fe hfe e he).2.2
  refine ⟨(hasEntry_update_mapping_dict d c' _ _ _ _ e.old_model hE hMo).1,
    (hasEntry_update_mapping_dict d c' _ _ _ _ e.old_model hE hMo).2,
    (hasEntry_update_mapping_dict d c' _ _ _ _ e.new_model hE hMn).2⟩

theorem foldl_eq_of_forall_fixed {α β : Type} (f : β → α → β) (b : β) (l : List α)
    (h : ∀ a ∈ l, f b a = b) : l.foldl f b = b := by
  induction l with
  | nil => rfl
  | cons a rest ih =>
    rw [List.foldl_cons, h a (List.mem_cons_self a rest)]
    exact ih fun x hx => h x (List.mem_cons_of_mem a hx)

theorem update_mapping_dict_of_contains (d : MapDict) (c : List Edge)
    (h : containsChain d c) : update_mapping_dict d c = d := by
  rw [update_mapping_dict]
  cases hl : c.getLast? with
  | none => rfl
  | some fe =>
    have hfe_mem : fe ∈ c := mem_of_getLast?_eq_some c fe hl
    obtain ⟨⟨np, hnp, mm, hmm, lst, hlst, hen⟩, _, _⟩ := h fe hl fe hfe_mem
    have h1 : ensureNode fe.new_node d = d := by
      rw [ensureNode, if_pos (by rw [hnp]; exact Option.isSome_some)]
    have h2 : ensureProp fe.new_node fe.new_prop d = d := by
      rw [ensureProp, hnp]
      simp only [Option.getD_some]
      rw [if_pos (by rw [hmm]; exact Option.isSome_some)]
    dsimp only
    rw [h1, h2]
    refine foldl_eq_of_forall_fixed _ _ _ ?_
    intro e he
    obtain ⟨⟨npe, hnpe, mme, hmme, lste, hlste, hene⟩, hMo, hMn⟩ := h fe hl e he
    have hnpeq : npe = np := by
      rw [hnp] at hnpe
      injection hnpe with hh
      exact hh.symm
    subst hnpeq
    have hmmeq : mme = mm := by
      rw [hmm] at hmme
      injection hmme with hh
      exact hh.symm
    subst hmmeq
    rw [addChainEdge, hnp]
    simp only [Option.getD_some]
    rw [hmm]
    simp only [Option.getD_some]
    rw [hlste]
    simp only [Option.getD_some]
    rw [if_pos (List.elem_eq_true_of_mem hene)]
    rw [dictSet_of_dictGet_eq _ _ _ hlste, dictSet_of_dictGet_eq _ _ _ hmm,
      dictSet_of_dictGet_eq _ _ _ hnp]
    rw [addModels]
    rw [if_pos hMo]
    rw [if_pos hMn]

theorem assemble_chains_preserves (cs : List (List Edge)) :
    ∀ (d : MapDict) (c : List Edge), containsChain d c →
      containsChain (assemble_chains d cs) c := by
  induction cs with
  | nil => intro d c h; exact h
  | cons c' rest ih =>
    intro d c h
    rw [assemble_chains, List.foldl_cons]
    exact ih _ c (containsChain_update_mapping_dict d c c' h)

theorem assemble_chains_establishes (cs : List (List Edge)) :
    ∀ (d : MapDict) (c : List Edge), c ∈ cs →
      containsChain (assemble_chains d cs) c := by
  induction cs with
  | nil => intro d c hc; exact absurd hc (List.not_mem_nil c)
  | cons c' rest ih =>
    intro d c hc
    rw [assemble_chains, List.foldl_cons]
    rcases List.mem_cons.mp hc with hc | hc
    · subst hc
      exact assemble_chains_preserves rest _ c (update_mapping_dict_establishes d c)
    · exact ih _ c hc

theorem assemble_chains_of_contains (d : MapDict) (cs : List (List Edge))
    (h : ∀ c ∈ cs, containsChain d c) : assemble_chains d cs = d := by
  induction cs with
  | nil => rfl
  | cons c' rest ih =>
    rw [assemble_chains, List.foldl_cons,
      update_mapping_dict_of_contains d c' (h c' (List.mem_cons_self c' rest))]
    exact ih fun c hc => h c (List.mem_cons_of_mem c' hc)

/-- Every entry list reachable through Props holds no duplicates. -/
def entryListsNodup (d : MapDict) : Prop :=
  ∀ tn np tp mm mdl lst, dictGet d.Props tn = some np → dictGet np tp = some mm →
    dictGet mm mdl = some lst → lst.Nodup

theorem propsLookup_eq_some (d : MapDict) (tn tp mdl : String) (lst : List PropEntry) :
    propsLookup d tn tp mdl = some lst ↔
      ∃ np, dictGet d.Props tn = some np ∧ ∃ mm, dictGet np tp = some mm ∧
        dictGet mm mdl = some lst := by
  rw [propsLookup]
  cases h1 : dictGet d.Props tn with
  | none => simp
  | some np =>
    cases h2 : dictGet np tp with
    | none => simp [h2]
    | some mm => simp [h2]

theorem nodup_through_getD2 (d : MapDict) (h : entryListsNodup d) (tn' : String) :
    ∀ tp mm mdl lst, dictGet ((dictGet d.Props tn').getD []) tp = some mm →
      dictGet mm mdl = some lst → lst.Nodup := by
  intro tp mm mdl lst hmm hlst
  cases hg : dictGet d.Props tn' with
  | none =>
    rw [hg] at hmm
    simp [dictGet] at hmm
  | some np0 =>
    rw [hg] at hmm
    simp only [Option.getD_some] at hmm
    exact h tn' np0 tp mm mdl lst hg hmm hlst

theorem nodup_through_getD3 (d : MapDict) (h : entryListsNodup d) (tn' tp' : String) :
    ∀ mdl lst,
      dictGet ((dictGet ((dictGet d.Props tn').getD []) tp').getD []) mdl = some lst →
      lst.Nodup := by
  intro mdl lst hlst
  cases hg : dictGet ((dictGet d.Props tn').getD []) tp' with
  | none =>
    rw [hg] at hlst
    simp [dictGet] at hlst
  | some mm0 =>
    rw [hg] at hlst
    simp only [Option.getD_some] at hlst
    exact nodup_through_getD2 d h tn' tp' mm0 mdl lst hg hlst

theorem nodup_ensureNode (d : MapDict) (tn' : String) (h : entryListsNodup d) :
    entryListsNodup (ensureNode tn' d) := by
  intro tn np tp mm mdl lst hnp hmm hlst
  rw [ensureNode] at hnp
  by_cases hp : (dictGet d.Props tn').isSome
  · rw [if_pos hp] at hnp
    exact h tn np tp mm mdl lst hnp hmm hlst
  · rw [if_neg hp] at hnp
    rw [dictGet_dictSet] at hnp
    by_cases htn : tn = tn'
    · rw [if_pos htn] at hnp
      injection hnp with hh
      rw [← hh] at hmm
      simp [dictGet] at hmm
    · rw [if_neg htn] at hnp
      exact h tn np tp mm mdl lst hnp hmm hlst

theorem nodup_ensureProp (d : MapDict) (tn' tp' : String) (h : entryListsNodup d) :
    entryListsNodup (ensureProp tn' tp' d) := by
  intro tn np tp mm mdl lst hnp hmm hlst
  rw [ensureProp] at hnp
  by_cases hp : (dictGet ((dictGet d.Props tn').getD []) tp').isSome
  · rw [if_pos hp] at hnp
    exact h tn np tp mm mdl lst hnp hmm hlst
  · rw [if_neg hp] at hnp
    rw [dictGet_dictSet] at hnp
    by_cases htn : tn = tn'
    · rw [if_pos htn] at hnp
      injection hnp with hh
      rw [← hh] at hmm
      rw [dictGet_dictSet] at hmm
      by_cases htp : tp = tp'
      · rw [if_pos htp] at hmm
        injection hmm with hh2
        rw [← hh2] at hlst
        simp [dictGet] at hlst
      · rw [if_neg htp] at hmm
        exact nodup_through_getD2 d h tn' tp mm mdl lst hmm hlst
    · rw [if_neg htn] at hnp
      exact h tn np tp mm mdl lst hnp hmm hlst

theorem nodup_addChainEdge (d : MapDict) (tn' tp' : String) (e : Edge)
    (h : entryListsNodup d) : entryListsNodup (addChainEdge tn' tp' d e) := by
  intro tn np tp mm mdl lst hnp hmm hlst
  rw [addChainEdge] at hnp
  rw [dictGet_dictSet] at hnp
  by_cases htn : tn = tn'
  · rw [if_pos htn] at hnp
    injection hnp with hh
    rw [← hh] at hmm
    rw [dictGet_dictSet] at hmm
    by_cases htp : tp = tp'
    · rw [if_pos htp] at hmm
      injection hmm with hh2
      rw [← hh2] at hlst
      rw [dictGet_dictSet] at hlst
      by_cases hmdl : mdl = e.old_model
      · rw [if_pos hmdl] at hlst
        injection hlst with hh3
        rw [← hh3]
        have hLnodup :
            ((dictGet ((dictGet ((dictGet d.Props tn').getD []) tp').getD [])
              e.old_model).getD []).Nodup := by
          cases hg : dictGet ((dictGet ((dictGet d.Props tn').getD []) tp').getD [])
              e.old_model with
          | none => simp
          | some lst0 =>
            simp only [Option.getD_some]
            exact nodup_through_getD3 d h tn' tp' e.old_model lst0 hg
        by_cases hc : ((dictGet ((dictGet ((dictGet d.Props tn').getD []) tp').getD [])
            e.old_model).getD []).contains (chainEntry e)
        · rw [if_pos hc]
          exact hLnodup
        · rw [if_neg hc]
          refine List.Nodup.append hLnodup (List.nodup_singleton _) ?_
          intro a ha ha2
          rw [List.mem_singleton] at ha2
          subst ha2
          exact hc (List.elem_eq_true_of_mem ha)
      · rw [if_neg hmdl] at hlst
        exact nodup_through_getD3 d h tn' tp' mdl lst hlst
    · rw [if_neg htp] at hmm
      exact nodup_through_getD2 d h tn' tp mm mdl lst hmm hlst
  · rw [if_neg htn] at hnp
    exact h tn np tp mm mdl lst hnp hmm hlst

theorem nodup_update_mapping_dict (d : MapDict) (c : List Edge)
    (h : entryListsNodup d) : entryListsNodup (update_mapping_dict d c) := by
  rw [update_mapping_dict]
  cases hl : c.getLast? with
  | none => exact h
  | some fe =>
    dsimp only
    have hbase : entryListsNodup (ensureProp fe.new_node fe.new_prop
        (ensureNode fe.new_node d)) :=
      nodup_ensureProp _ _ _ (nodup_ensureNode _ _ h)
    generalize ensureProp fe.new_node fe.new_prop (ensureNode fe.new_node d) = d0
      at hbase
    clear hl h
    induction c generalizing d0 with
    | nil => exact hbase
    | cons e rest ih =>
      rw [List.foldl_cons]
      exact ih _ (nodup_addChainEdge _ _ _ _ hbase)

theorem nodup_assemble_chains (cs : List (List Edge)) :
    ∀ d : MapDict, entryListsNodup d → entryListsNodup (assemble_chains d cs) := by
  induction cs with
  | nil => intro d h; exact h
  | cons c rest ih =>
    intro d h
    rw [assemble_chains, List.foldl_cons]
    exact ih _ (nodup_update_mapping_dict d c h)

/-- C7: folding the same complete chains into the mapping dict a second
time leaves it untouched, and no Props entry list ever holds the same
(source_prop, Parents) entry twice. -/
theorem c7_assemble_idempotent (lm : String) (chains : List (List Edge))
    (_hne : ∀ c ∈ chains, c ≠ []) :
    assemble_chains (assemble_chains (initMapDict lm) chains) chains =
        assemble_chains (initMapDict lm) chains ∧
      ∀ tn tp mdl lst,
        propsLookup (assemble_chains (initMapDict lm) chains) tn tp mdl = some lst →
        lst.Nodup := by
  constructor
  · exact assemble_chains_of_contains _ chains
      (fun c hc => assemble_chains_establishes chains (initMapDict lm) c hc)
  · intro tn tp mdl lst hlook
    obtain ⟨np, hnp, mm, hmm, hlst⟩ :=
      (propsLookup_eq_some _ tn tp mdl lst).mp hlook
    have hinit : entryListsNodup (initMapDict lm) := by
      intro tn0 np0 tp0 mm0 mdl0 lst0 hnp0 _ _
      simp [initMapDict, dictGet] at hnp0
    exact nodup_assemble_chains chains (initMapDict lm) hinit
      tn np tp mm mdl lst hnp hmm hlst

/-- Witness for C7 on the one-chain set made of the spec two-hop
chain. -/
theorem c7_assemble_idempotent_witness :
    assemble_chains (assemble_chains (initMapDict "CCDIv2.1.0") [[hopEdge1, hopEdge2]])
          [[hopEdge1, hopEdge2]] =
        assemble_chains (initMapDict "CCDIv2.1.0") [[hopEdge1, hopEdge2]] ∧
      ∀ tn tp mdl lst,
        propsLookup (assemble_chains (initMapDict "CCDIv2.1.0") [[hopEdge1, hopEdge2]])
            tn tp mdl = some lst →
        lst.Nodup :=
  c7_assemble_idempotent "CCDIv2.1.0" [[hopEdge1, hopEdge2]] (by decide)

/-! ### C9: order-independence of build_chains -/

theorem contains_eq_false_of_not_mem {α : Type} [BEq α] [LawfulBEq α]
    (l : List α) (a : α) (h : a ∉ l) : l.contains a = false := by
  cases hc : l.contains a with
  | false => rfl
  | true => exact absurd (List.mem_of_elem_eq_true hc) h

/-- With pairwise-distinct source triples, the first edge matching a
source-triple key does not depend on the order of the edge pool. -/
theorem findNext_eq_of_perm (e1 e2 : List Edge) (hperm : e1.Perm e2)
    (huniq : e1.Pairwise fun a b => srcTriple a ≠ srcTriple b)
    (k : String × String × String) : findNext e1 k = findNext e2 k := by
  cases h1 : findNext e1 k with
  | none =>
    rw [findNext] at h1
    have hnone := List.find?_eq_none.mp h1
    symm
    rw [findNext]
    exact List.find?_eq_none.mpr fun e he => hnone e (hperm.mem_iff.mpr he)
  | some e =>
    rw [findNext] at h1
    have hp := List.find?_some h1
    have hmem : e ∈ e1 := List.mem_of_find?_eq_some h1
    cases h2 : findNext e2 k with
    | none =>
      rw [findNext] at h2
      exact absurd hp (List.find?_eq_none.mp h2 e (hperm.mem_iff.mp hmem))
    | some e' =>
      rw [findNext] at h2
      have hp' := List.find?_some h2
      have hmem' : e' ∈ e1 := hperm.mem_iff.mpr (List.mem_of_find?_eq_some h2)
      by_cases heq : e = e'
      · rw [heq]
      · exfalso
        have hsym : Symmetric fun a b : Edge => srcTriple a ≠ srcTriple b :=
          fun _ _ hab hba => hab hba.symm
        exact (List.Pairwise.forall hsym huniq) hmem hmem' heq
          ((eq_of_beq hp).trans (eq_of_beq hp').symm)

/-- The walk consults the edge pool only through findNext. -/
theorem walk_congr (e1 e2 : List Edge)
    (hfind : ∀ k, findNext e1 k = findNext e2 k) :
    ∀ (fuel : Nat) (cur : Edge) (chain : List Edge),
      walk e1 fuel cur chain = walk e2 fuel cur chain := by
  intro fuel
  induction fuel with
  | zero => intro cur chain; rfl
  | succ n ih =>
    intro cur chain
    by_cases hstop : (cur.new_node = "" || cur.new_prop = "") = true
    · rw [walk, walk, if_pos hstop, if_pos hstop]
    · rw [walk, walk, if_neg hstop, if_neg hstop, hfind]
      cases hfn : findNext e2 (destTriple cur) with
      | some e =>
        dsimp only
        exact ih e (chain ++ [e])
      | none => rfl

theorem dest_keys_mem_iff (e1 e2 : List Edge) (hperm : e1.Perm e2)
    (x : String × String × String) : x ∈ dest_keys e1 ↔ x ∈ dest_keys e2 :=
  ((hperm.filter _).map destTriple).mem_iff

theorem starting_edges_perm (e1 e2 : List Edge) (hperm : e1.Perm e2) :
    (starting_edges e1).Perm (starting_edges e2) := by
  rw [starting_edges, starting_edges]
  have hco : e2.filter (fun e => !(dest_keys e2).contains (srcTriple e)) =
      e2.filter (fun e => !(dest_keys e1).contains (srcTriple e)) := by
    apply List.filter_congr
    intro e _
    by_cases hc : srcTriple e ∈ dest_keys e1
    · have c1 : (dest_keys e1).contains (srcTriple e) = true :=
        List.elem_eq_true_of_mem hc
      have c2 : (dest_keys e2).contains (srcTriple e) = true :=
        List.elem_eq_true_of_mem ((dest_keys_mem_iff e1 e2 hperm _).mp hc)
      rw [c1, c2]
    · have c1 : (dest_keys e1).contains (srcTriple e) = false :=
        contains_eq_false_of_not_mem _ _ hc
      have c2 : (dest_keys e2).contains (srcTriple e) = false :=
        contains_eq_false_of_not_mem _ _
          fun h => hc ((dest_keys_mem_iff e1 e2 hperm _).mpr h)
      rw [c1, c2]
  rw [hco]
  exact hperm.filter _

theorem build_chains_from_congr (e1 e2 : List Edge) (lm : String) (fuel : Nat)
    (hfind : ∀ k, findNext e1 k = findNext e2 k) :
    ∀ starts, build_chains_from e1 lm fuel starts =
      build_chains_from e2 lm fuel starts := by
  intro starts
  induction starts with
  | nil => rfl
  | cons s rest ih =>
    rw [build_chains_from, build_chains_from, walk_congr e1 e2 hfind fuel s [s], ih]

theorem build_chains_from_perm (edges : List Edge) (lm : String) (fuel : Nat)
    (starts starts' : List Edge) (hperm : starts.Perm starts') :
    ∀ cs fs, build_chains_from edges lm fuel starts = some (cs, fs) →
      ∃ cs' fs', build_chains_from edges lm fuel starts' = some (cs', fs') ∧
        cs.Perm cs' ∧ fs.Perm fs' := by
  induction hperm with
  | nil =>
    intro cs fs h
    exact ⟨cs, fs, h, .refl _, .refl _⟩
  | cons x hl ih =>
    rename_i l₁ l₂
    intro cs fs h
    rw [build_chains_from] at h ⊢
    cases hw : walk edges fuel x [x] with
    | none => rw [hw] at h; exact absurd h (by simp)
    | some pr =>
      obtain ⟨chain, last⟩ := pr
      rw [hw] at h
      cases hrec : build_chains_from edges lm fuel l₁ with
      | none => rw [hrec] at h; exact absurd h (by simp)
      | some pr0 =>
        obtain ⟨cs1, fs1⟩ := pr0
        rw [hrec] at h
        dsimp only at h
        obtain ⟨cs2, fs2, hrec2, p1, p2⟩ := ih cs1 fs1 hrec
        rw [hrec2]
        dsimp only
        by_cases hb : isCompleteLast lm last = true
        · rw [if_pos hb] at h ⊢
          obtain ⟨h1, h2⟩ := Prod.mk.injEq .. ▸ Option.some.injEq .. ▸ h
          subst h1; subst h2
          exact ⟨chain :: cs2, fs2, rfl, p1.cons chain, p2⟩
        · rw [if_neg hb] at h ⊢
          obtain ⟨h1, h2⟩ := Prod.mk.injEq .. ▸ Option.some.injEq .. ▸ h
          subst h1; subst h2
          exact ⟨cs2, chain :: fs2, rfl, p1, p2.cons chain⟩
  | swap x y l =>
    intro cs fs h
    rw [build_chains_from] at h ⊢
    cases hwy : walk edges fuel y [y] with
    | none =>
      rw [hwy] at h
      exact absurd h (by simp)
    | some pry =>
      obtain ⟨cy, ly⟩ := pry
      rw [hwy] at h
      rw [build_chains_from] at h
      cases hwx : walk edges fuel x [x] with
      | none =>
        rw [hwx] at h
        exact absurd h (by simp)
      | some prx =>
        obtain ⟨cx, lx⟩ := prx
        rw [hwx] at h
        cases hrec : build_chains_from edges lm fuel l with
        | none =>
          rw [hrec] at h
          exact absurd h (by simp)
        | some pr0 =>
          obtain ⟨cs0, fs0⟩ := pr0
          rw [hrec] at h
          dsimp only at h
          rw [build_chains_from, hwy, hrec]
          dsimp only
          by_cases hbx : isCompleteLast lm lx = true <;>
            by_cases hby : isCompleteLast lm ly = true
          · rw [if_pos hbx] at h
            dsimp only at h
            rw [if_pos hby] at h
            rw [if_pos hby]
            dsimp only
            rw [if_pos hbx]
            obtain ⟨h1, h2⟩ := Prod.mk.injEq .. ▸ Option.some.injEq .. ▸ h
            subst h1; subst h2
            exact ⟨cx :: cy :: cs0, fs0, rfl, List.Perm.swap cx cy cs0, .refl _⟩
          · rw [if_pos hbx] at h
            dsimp only at h
            rw [if_neg hby] at h
            rw [if_neg hby]
            dsimp only
            rw [if_pos hbx]
            obtain ⟨h1, h2⟩ := Prod.mk.injEq .. ▸ Option.some.injEq .. ▸ h
            subst h1; subst h2
            exact ⟨cx :: cs0, cy :: fs0, rfl, .refl _, .refl _⟩
          · rw [if_neg hbx] at h
            dsimp only at h
            rw [if_pos hby] at h
            rw [if_pos hby]
            dsimp only
            rw [if_neg hbx]
            obtain ⟨h1, h2⟩ := Prod.mk.injEq .. ▸ Option.some.injEq .. ▸ h
            subst h1; subst h2
            exact ⟨cy :: cs0, cx :: fs0, rfl, .refl _, .refl _⟩
          · rw [if_neg hbx] at h
            dsimp only at h
            rw [if_neg hby] at h
            rw [if_neg hby]
            dsimp only
            rw [if_neg hbx]
            obtain ⟨h1, h2⟩ := Prod.mk.injEq .. ▸ Option.some.injEq .. ▸ h
            subst h1; subst h2
            exact ⟨cs0, cx :: cy :: fs0, rfl, .refl _, List.Perm.swap cx cy fs0⟩
  | trans h1 h2 ih1 ih2 =>
    intro cs fs h
    obtain ⟨cs1, fs1, hmid, p1, p2⟩ := ih1 cs fs h
    obtain ⟨cs2, fs2, hfin, q1, q2⟩ := ih2 cs1 fs1 hmid
    exact ⟨cs2, fs2, hfin, p1.trans q1, p2.trans q2⟩

/-- C9: for an edge set with pairwise-distinct source triples (no
branching ambiguity), permuting the input edges yields the same
complete and conflicted collections up to permutation, hence equal as
sets of chains. -/
theorem c9_order_independence (edges edges' : List Edge) (lm : String) (fuel : Nat)
    (hperm : edges.Perm edges')
    (huniq : edges.Pairwise fun a b => srcTriple a ≠ srcTriple b)
    (cs fs : List (List Edge))
    (h : build_chains edges lm fuel = some (cs, fs)) :
    ∃ cs' fs', build_chains edges' lm fuel = some (cs', fs') ∧
      cs.Perm cs' ∧ fs.Perm fs' := by
  have hfind := findNext_eq_of_perm edges edges' hperm huniq
  rw [build_chains] at h ⊢
  rw [← build_chains_from_congr edges edges' lm fuel hfind (starting_edges edges')]
  exact build_chains_from_perm edges lm fuel (starting_edges edges)
    (starting_edges edges') (starting_edges_perm edges edges' hperm) cs fs h

/-- Witness for C9: swapping the two edges of the two-hop example. -/
theorem c9_order_independence_witness :
    ∃ cs' fs', build_chains [hopEdge2, hopEdge1] "CCDIv2.1.0" 5 = some (cs', fs') ∧
      ([[hopEdge1, hopEdge2]] : List (List Edge)).Perm cs' ∧
      ([] : List (List Edge)).Perm fs' :=
  c9_order_independence [hopEdge1, hopEdge2] [hopEdge2, hopEdge1] "CCDIv2.1.0" 5
    (List.Perm.swap hopEdge2 hopEdge1 []) (by decide) [[hopEdge1, hopEdge2]] []
    (by decide)

/-! ### C2: round-trip through the single-table converter -/

/-- The single mapped row of the C2 counterexample. -/
def c2Row : Row := ⟨"n1", "p1", "1", "n2", "p2", "2"⟩

/-- Counterexample to C2 as stated: the spec round-trip formula
extract_pairwise(convert_single_table(rows, src), src) passes the same
model name src to both calls.  On the one-row table whose only (mapped)
row lifts CCDIv1 to CCDIv2, taking src = CCDIv2 (the anchor, as the
converter's Source parameter requires) makes the extraction look up
CCDIv2 inside the per-model maps, which are keyed by the old model
CCDIv1; the result is the empty row list rather than the mapped input
row. -/
theorem c2_roundtrip_counterexample :
    ((convert_df_to_map_dict [c2Row] "CCDIv2").bind
        fun g => extract_pairwise_mappings g "CCDIv2") = .ok [] ∧
      c2Row.lift_to_node ≠ "" ∧ c2Row.lift_from_property ≠ "" :=
  ⟨rfl, by decide, by decide⟩

theorem modelName_inj (a b : String) (h : modelName a = modelName b) : a = b := by
  rw [modelName, modelName] at h
  have hd := congrArg String.data h
  rw [String.data_append, String.data_append] at hd
  exact String.ext (List.append_cancel_left hd)

theorem update_model_info_props (r : Row) (d : MapDict) :
    (update_model_info r d).Props = d.Props ∧
      (update_model_info r d).TBD = d.TBD ∧
      (update_model_info r d).Source = d.Source := ⟨rfl, rfl, rfl⟩

theorem update_model_info_keeps (r : Row) (d : MapDict)
    (h1 : dictGet d.Models (modelName r.lift_from_version) = some r.lift_from_version)
    (h2 : dictGet d.Models (modelName r.lift_to_version) = some r.lift_to_version) :
    (update_model_info r d).Models = d.Models := by
  rw [update_model_info]
  rw [h1]
  simp only [Option.isSome_some, if_pos]
  rw [h2]
  simp only [Option.isSome_some, if_pos]

theorem update_model_info_from_empty (r : Row) (d : MapDict) (h : d.Models = []) :
    dictGet (update_model_info r d).Models (modelName r.lift_from_version) =
        some r.lift_from_version ∧
      dictGet (update_model_info r d).Models (modelName r.lift_to_version) =
        some r.lift_to_version := by
  rw [update_model_info, h]
  by_cases heq : modelName r.lift_from_version = modelName r.lift_to_version
  · have hv : r.lift_from_version = r.lift_to_version := modelName_inj _ _ heq
    simp [dictGet, dictSet, heq, hv]
  · simp [dictGet, dictSet, heq, Ne.symm heq]

theorem update_node_info_spec (r : Row) (d : MapDict) (h : r.lift_to_node ≠ "") :
    (update_node_info r d).TBD = d.TBD ∧
      (update_node_info r d).Models = d.Models ∧
      (update_node_info r d).Source = d.Source ∧
      ((dictGet d.Props r.lift_to_node).isSome → update_node_info r d = d) ∧
      (dictGet d.Props r.lift_to_node = none →
        (update_node_info r d).Props = dictSet d.Props r.lift_to_node []) := by
  rw [update_node_info, if_neg h]
  by_cases hp : (dictGet d.Props r.lift_to_node).isSome
  · rw [if_pos hp]
    refine ⟨rfl, rfl, rfl, fun _ => rfl, fun hn => ?_⟩
    rw [hn] at hp
    simp at hp
  · rw [if_neg hp]
    refine ⟨rfl, rfl, rfl, fun hs => absurd hs hp, fun _ => rfl⟩

/-- The Props entry recorded for a mapped row. -/
def c2Entry (r : Row) : PropEntry := ⟨r.lift_from_property, r.lift_from_node⟩

/-- Invariant of the convert_df_to_map_dict loop on a single
two-version table: after the rows rs have been folded in, Props holds
exactly one fresh singleton per distinct destination seen in rs, keyed
under the old model, and Models knows both versions as soon as any row
was processed. -/
def convInv (v1 v2 : String) (rs : List Row) (d : MapDict) : Prop :=
  d.Source = modelName v2 ∧
  d.TBD = [] ∧
  (d.Props.map Prod.fst).Nodup ∧
  (∀ p ∈ d.Props, (p.2.map Prod.fst).Nodup) ∧
  (∀ tn np tp mm, dictGet d.Props tn = some np → dictGet np tp = some mm →
    ∃ r, r ∈ rs ∧ r.lift_to_node = tn ∧ r.lift_to_property = tp ∧
      mm = [(modelName v1, [c2Entry r])]) ∧
  (∀ r, r ∈ rs → ∃ np, dictGet d.Props r.lift_to_node = some np ∧
    dictGet np r.lift_to_property = some [(modelName v1, [c2Entry r])]) ∧
  (rs = [] → d.Models = []) ∧
  (rs ≠ [] → dictGet d.Models (modelName v1) = some v1 ∧
    dictGet d.Models (modelName v2) = some v2)

theorem update_prop_info_fresh (d : MapDict) (r : Row)
    (np2 : List (String × List (String × List PropEntry)))
    (hnode : r.lift_to_node ≠ "")
    (hnp2 : dictGet d.Props r.lift_to_node = some np2)
    (htp : dictGet np2 r.lift_to_property = none)
    (hprop : r.lift_from_property ≠ "") :
    update_prop_info r d = .ok { d with Props :=
      (dictSet d.Props r.lift_to_node (dictSet np2 r.lift_to_property
        [(modelName r.lift_from_version, [c2Entry r])])) } := by
  rw [update_prop_info, if_neg hnode, hnp2]
  dsimp only
  rw [htp]
  simp only [Option.isSome_none, Bool.false_eq_true, if_false, if_pos hprop]
  rfl

theorem update_prop_info_existing (d : MapDict) (r : Row)
    (np2 : List (String × List (String × List PropEntry)))
    (hnode : r.lift_to_node ≠ "")
    (hnp2 : dictGet d.Props r.lift_to_node = some np2)
    (htp : (dictGet np2 r.lift_to_property).isSome) :
    update_prop_info r d = .ok d := by
  rw [update_prop_info, if_neg hnode, hnp2]
  dsimp only
  simp only [htp, if_pos]

theorem node_stage_cases (d : MapDict) (r : Row) (hnode : r.lift_to_node ≠ "") :
    (update_node_info r d = d ∧ (dictGet d.Props r.lift_to_node).isSome) ∨
      ((update_node_info r d).Props = dictSet d.Props r.lift_to_node [] ∧
        dictGet d.Props r.lift_to_node = none ∧
        (update_node_info r d).TBD = d.TBD ∧
        (update_node_info r d).Models = d.Models ∧
        (update_node_info r d).Source = d.Source) := by
  obtain ⟨h1, h2, h3, h4, h5⟩ := update_node_info_spec r d hnode
  cases hc : dictGet d.Props r.lift_to_node with
  | some np =>
    refine Or.inl ⟨h4 ?_, ?_⟩ <;> simp [hc]
  | none => exact Or.inr ⟨h5 hc, rfl, h1, h2, h3⟩

theorem fresh_insert_inv (v1 v2 : String) (rs : List Row) (b : MapDict) (r : Row)
    (hsrc : b.Source = modelName v2) (htbd : b.TBD = [])
    (hnd1 : (b.Props.map Prod.fst).Nodup)
    (hnd2 : ∀ p ∈ b.Props, (p.2.map Prod.fst).Nodup)
    (hfwd : ∀ tn np tp mm, dictGet b.Props tn = some np → dictGet np tp = some mm →
      ∃ r0, r0 ∈ rs ∧ r0.lift_to_node = tn ∧ r0.lift_to_property = tp ∧
        mm = [(modelName v1, [c2Entry r0])])
    (hbwd : ∀ r0, r0 ∈ rs → ∃ np, dictGet b.Props r0.lift_to_node = some np ∧
      dictGet np r0.lift_to_property = some [(modelName v1, [c2Entry r0])])
    (hm : dictGet b.Models (modelName v1) = some v1 ∧
      dictGet b.Models (modelName v2) = some v2)
    (np2 : List (String × List (String × List PropEntry)))
    (hnp2 : dictGet b.Props r.lift_to_node = some np2)
    (htp : dictGet np2 r.lift_to_property = none) :
    convInv v1 v2 (rs ++ [r]) { b with Props :=
      (dictSet b.Props r.lift_to_node (dictSet np2 r.lift_to_property
        [(modelName v1, [c2Entry r])])) } := by
  refine ⟨hsrc, htbd, keys_dictSet_nodup _ _ _ hnd1, ?_, ?_, ?_, ?_, fun _ => hm⟩
  · intro p hp
    rcases mem_dictSet _ _ _ _ hp with hp | hp
    · subst hp
      refine keys_dictSet_nodup _ _ _ ?_
      exact hnd2 (r.lift_to_node, np2) (mem_of_dictGet_eq_some _ _ _ hnp2)
    · exact hnd2 p hp
  · intro tn0 np0 tp0 mm0 h1 h2
    rw [dictGet_dictSet] at h1
    by_cases htn0 : tn0 = r.lift_to_node
    · rw [if_pos htn0] at h1
      injection h1 with h1
      rw [← h1] at h2
      rw [dictGet_dictSet] at h2
      by_cases htp0 : tp0 = r.lift_to_property
      · rw [if_pos htp0] at h2
        injection h2 with h2
        exact ⟨r, List.mem_append_right rs (List.mem_singleton.mpr rfl),
          htn0.symm, htp0.symm, h2.symm⟩
      · rw [if_neg htp0] at h2
        obtain ⟨r0, hr0, ha, hb, hc⟩ := hfwd tn0 np2 tp0 mm0 (by rw [htn0]; exact hnp2) h2
        exact ⟨r0, List.mem_append_left _ hr0, ha, hb, hc⟩
    · rw [if_neg htn0] at h1
      obtain ⟨r0, hr0, ha, hb, hc⟩ := hfwd tn0 np0 tp0 mm0 h1 h2
      exact ⟨r0, List.mem_append_left _ hr0, ha, hb, hc⟩
  · intro r0 hr0
    rcases List.mem_append.mp hr0 with hr0 | hr0
    · obtain ⟨np, hnpb, htpb⟩ := hbwd r0 hr0
      by_cases htn0 : r0.lift_to_node = r.lift_to_node
      · have hnpeq : np = np2 := by
          rw [htn0] at hnpb
          rw [hnpb] at hnp2
          injection hnp2
        subst hnpeq
        by_cases htp0 : r0.lift_to_property = r.lift_to_property
        · rw [htp0] at htpb
          rw [htpb] at htp
          exact absurd htp (by simp)
        · refine ⟨dictSet np r.lift_to_property [(modelName v1, [c2Entry r])], ?_, ?_⟩
          · rw [htn0]
            exact dictGet_dictSet_self _ _ _
          · rw [dictGet_dictSet_ne _ _ _ _ htp0]
            exact htpb
      · refine ⟨np, ?_, htpb⟩
        rw [dictGet_dictSet_ne _ _ _ _ htn0]
        exact hnpb
    · rw [List.mem_singleton.mp hr0]
      exact ⟨dictSet np2 r.lift_to_property [(modelName v1, [c2Entry r])],
        dictGet_dictSet_self _ _ _, dictGet_dictSet_self _ _ _⟩
  · intro hcontra
    exact absurd hcontra (by simp)

theorem conv_step_inv (v1 v2 : String) (rs : List Row) (d : MapDict) (r : Row)
    (hinv : convInv v1 v2 rs d)
    (hv1 : r.lift_from_version = v1) (hv2 : r.lift_to_version = v2)
    (hnode : r.lift_to_node ≠ "") (hprop : r.lift_from_property ≠ "")
    (hrs : ∀ r' ∈ rs, r'.lift_to_node = r.lift_to_node →
      r'.lift_to_property = r.lift_to_property → r' = r) :
    ∃ d', convert_row_step d r = .ok d' ∧ convInv v1 v2 (rs ++ [r]) d' := by
  obtain ⟨hsrc, htbd, hnd1, hnd2, hfwd, hbwd, hempty, hmods⟩ := hinv
  have hd1props : (update_model_info r d).Props = d.Props := rfl
  have hd1tbd : (update_model_info r d).TBD = d.TBD := rfl
  have hd1src : (update_model_info r d).Source = d.Source := rfl
  have hd1models : dictGet (update_model_info r d).Models (modelName v1) = some v1 ∧
      dictGet (update_model_info r d).Models (modelName v2) = some v2 := by
    cases hcase : rs with
    | nil =>
      have hm := update_model_info_from_empty r d (hempty hcase)
      rw [hv1, hv2] at hm
      exact hm
    | cons a l =>
      obtain ⟨hm1, hm2⟩ := hmods (by rw [hcase]; exact List.cons_ne_nil a l)
      have hkeep := update_model_info_keeps r d (by rw [hv1]; exact hm1)
        (by rw [hv2]; exact hm2)
      rw [hkeep]
      exact ⟨hm1, hm2⟩
  rw [convert_row_step]
  rcases node_stage_cases (update_model_info r d) r hnode with
    ⟨heq2, hpres⟩ | ⟨hp2, habs, ht2, hm2, hs2⟩
  · -- the destination node key already exists; update_node_info is the identity
    rw [heq2]
    rw [hd1props] at hpres
    obtain ⟨np2, hnp2⟩ := Option.isSome_iff_exists.mp hpres
    cases htp : dictGet np2 r.lift_to_property with
    | some mm =>
      -- the (node, property) pair exists: update_prop_info changes nothing
      refine ⟨update_model_info r d, update_prop_info_existing _ r np2 hnode
        (by rw [hd1props]; exact hnp2) (by rw [htp]; exact Option.isSome_some), ?_⟩
      obtain ⟨r0, hr0, ha, hb, hc⟩ := hfwd r.lift_to_node np2 r.lift_to_property mm
        hnp2 htp
      have hr0r : r0 = r := hrs r0 hr0 ha hb
      subst hr0r
      refine ⟨by rw [hd1src]; exact hsrc, by rw [hd1tbd]; exact htbd,
        by rw [hd1props]; exact hnd1, ?_, ?_, ?_, ?_, fun _ => hd1models⟩
      · rw [hd1props]; exact hnd2
      · intro tn0 np0 tp0 mm0 h1 h2
        rw [hd1props] at h1
        obtain ⟨r1, hr1, ha1, hb1, hc1⟩ := hfwd tn0 np0 tp0 mm0 h1 h2
        exact ⟨r1, List.mem_append_left _ hr1, ha1, hb1, hc1⟩
      · intro r1 hr1
        rcases List.mem_append.mp hr1 with hr1 | hr1
        · obtain ⟨np, hnp, htpn⟩ := hbwd r1 hr1
          exact ⟨np, by rw [hd1props]; exact hnp, htpn⟩
        · rw [List.mem_singleton.mp hr1]
          refine ⟨np2, by rw [hd1props]; exact hnp2, ?_⟩
          rw [htp, hc]
      · intro hcontra
        exact absurd hcontra (by simp)
    | none =>
      -- fresh (node, property) pair on a dict whose node key exists
      have hok := update_prop_info_fresh (update_model_info r d) r np2 hnode
        (by rw [hd1props]; exact hnp2) htp hprop
      rw [hv1] at hok
      refine ⟨_, hok, ?_⟩
      have hfresh := fresh_insert_inv v1 v2 rs (update_model_info r d) r
        (by rw [hd1src]; exact hsrc) (by rw [hd1tbd]; exact htbd)
        (by rw [hd1props]; exact hnd1)
        (by rw [hd1props]; exact hnd2)
        (by rw [hd1props]; exact hfwd)
        (by rw [hd1props]; exact hbwd)
        hd1models np2 (by rw [hd1props]; exact hnp2) htp
      rw [hd1props] at hfresh
      exact hfresh
  · -- the destination node key was created fresh by update_node_info
    rw [hd1props] at hp2 habs
    have hnp2 : dictGet (update_node_info r (update_model_info r d)).Props
        r.lift_to_node = some [] := by
      rw [hp2]
      exact dictGet_dictSet_self _ _ _
    have htp : dictGet ([] : List (String × List (String × List PropEntry)))
        r.lift_to_property = none := rfl
    have hok := update_prop_info_fresh (update_node_info r (update_model_info r d))
      r [] hnode hnp2 htp hprop
    rw [hv1] at hok
    refine ⟨_, hok, ?_⟩
    have hb_bwd : ∀ r0, r0 ∈ rs →
        ∃ np, dictGet (update_node_info r (update_model_info r d)).Props
          r0.lift_to_node = some np ∧
          dictGet np r0.lift_to_property = some [(modelName v1, [c2Entry r0])] := by
      intro r0 hr0
      obtain ⟨np, hnp, htpn⟩ := hbwd r0 hr0
      by_cases htn0 : r0.lift_to_node = r.lift_to_node
      · rw [htn0] at hnp
        rw [hnp] at habs
        exact absurd habs (by simp)
      · refine ⟨np, ?_, htpn⟩
        rw [hp2, dictGet_dictSet_ne _ _ _ _ htn0]
        exact hnp
    have hb_fwd : ∀ tn np tp mm,
        dictGet (update_node_info r (update_model_info r d)).Props tn = some np →
        dictGet np tp = some mm →
        ∃ r0, r0 ∈ rs ∧ r0.lift_to_node = tn ∧ r0.lift_to_property = tp ∧
          mm = [(modelName v1, [c2Entry r0])] := by
      intro tn np tp mm h1 h2
      rw [hp2, dictGet_dictSet] at h1
      by_cases htn0 : tn = r.lift_to_node
      · rw [if_pos htn0] at h1
        injection h1 with h1
        rw [← h1] at h2
        exact absurd h2 (by simp [dictGet])
      · rw [if_neg htn0] at h1
        exact hfwd tn np tp mm h1 h2
    have hb_nd1 : ((update_node_info r (update_model_info r d)).Props.map
        Prod.fst).Nodup := by
      rw [hp2]
      exact keys_dictSet_nodup _ _ _ hnd1
    have hb_nd2 : ∀ p ∈ (update_node_info r (update_model_info r d)).Props,
        (p.2.map Prod.fst).Nodup := by
      intro p hp
      rw [hp2] at hp
      rcases mem_dictSet _ _ _ _ hp with hp | hp
      · rw [hp]
        exact List.nodup_nil
      · exact hnd2 p hp
    exact fresh_insert_inv v1 v2 rs (update_node_info r (update_model_info r d)) r
      (by rw [hs2, hd1src]; exact hsrc) (by rw [ht2, hd1tbd]; exact htbd)
      hb_nd1 hb_nd2 hb_fwd hb_bwd
      (by rw [hm2]; exact hd1models) [] hnp2 htp

theorem conv_loop_inv (v1 v2 : String) (rows : List Row)
    (hall : ∀ r ∈ rows, r.lift_from_version = v1 ∧ r.lift_to_version = v2 ∧
      r.lift_to_node ≠ "" ∧ r.lift_from_property ≠ "")
    (hdest : ∀ r ∈ rows, ∀ r' ∈ rows, r.lift_to_node = r'.lift_to_node →
      r.lift_to_property = r'.lift_to_property → r = r') :
    ∀ (rest rs : List Row) (d : MapDict), rows = rs ++ rest → convInv v1 v2 rs d →
      ∃ g, rest.foldlM convert_row_step d = .ok g ∧ convInv v1 v2 rows g := by
  intro rest
  induction rest with
  | nil =>
    intro rs d hsplit hinv
    refine ⟨d, rfl, ?_⟩
    rw [hsplit, List.append_nil]
    exact hinv
  | cons r rest' ih =>
    intro rs d hsplit hinv
    have hrmem : r ∈ rows := by
      rw [hsplit]
      exact List.mem_append_right rs (List.mem_cons_self r rest')
    obtain ⟨h1, h2, h3, h4⟩ := hall r hrmem
    have hrs : ∀ r' ∈ rs, r'.lift_to_node = r.lift_to_node →
        r'.lift_to_property = r.lift_to_property → r' = r := by
      intro r' hr' ha hb
      exact hdest r' (by rw [hsplit]; exact List.mem_append_left _ hr') r hrmem ha hb
    obtain ⟨d', hok, hinv'⟩ := conv_step_inv v1 v2 rs d r hinv h1 h2 h3 h4 hrs
    have hsplit' : rows = (rs ++ [r]) ++ rest' := by
      rw [hsplit, List.append_assoc, List.singleton_append]
    obtain ⟨g, hg, hginv⟩ := ih (rs ++ [r]) d' hsplit' hinv'
    refine ⟨g, ?_, hginv⟩
    rw [List.foldlM_cons, hok]
    exact hg

/-- C2 as amended: on a non-empty single two-version table whose rows
are all mapped (non-empty destination node and source property, shared
version pair v1 to v2) with pairwise-distinct destinations, converting
with the anchor model CCDIv{v2} and then extracting the pairwise rows
for the table's own old model CCDIv{v1} reproduces exactly the input
rows as a set. -/
theorem c2_roundtrip_amended (rows : List Row) (v1 v2 : String)
    (hne : rows ≠ [])
    (hall : ∀ r ∈ rows, r.lift_from_version = v1 ∧ r.lift_to_version = v2 ∧
      r.lift_to_node ≠ "" ∧ r.lift_from_property ≠ "")
    (hdest : ∀ r ∈ rows, ∀ r' ∈ rows, r.lift_to_node = r'.lift_to_node →
      r.lift_to_property = r'.lift_to_property → r = r') :
    ∃ g out, convert_df_to_map_dict rows (modelName v2) = .ok g ∧
      extract_pairwise_mappings g (modelName v1) = .ok out ∧
      ∀ r, r ∈ out ↔ r ∈ rows := by
  have hinit : convInv v1 v2 [] (initMapDict (modelName v2)) := by
    refine ⟨rfl, rfl, by simp [initMapDict], by simp [initMapDict], ?_, ?_,
      fun _ => rfl, fun h => absurd rfl h⟩
    · intro tn np tp mm h1 _
      simp [initMapDict, dictGet] at h1
    · intro r hr
      simp at hr
  obtain ⟨g, hg, hinv⟩ := conv_loop_inv v1 v2 rows hall hdest rows []
    (initMapDict (modelName v2)) rfl hinit
  obtain ⟨hsrc, htbd, hnd1, hnd2, hfwd, hbwd, _, hmods⟩ := hinv
  obtain ⟨hm1, hm2⟩ := hmods hne
  refine ⟨g, g.Props.flatMap fun p => p.2.flatMap fun q =>
      match dictGet q.2 (modelName v1) with
      | some lst => lst.map (extractedRow p.1 q.1 v1 v2)
      | none => [], hg, ?_, ?_⟩
  · rw [extract_pairwise_mappings, hsrc, hm2]
    dsimp only
    rw [hm1]
    dsimp only
    rw [htbd]
  · intro r
    constructor
    · intro hr
      rcases List.mem_flatMap.mp hr with ⟨p, hp, hrp⟩
      rcases List.mem_flatMap.mp hrp with ⟨q, hq, hrq⟩
      cases hget : dictGet q.2 (modelName v1) with
      | none =>
        rw [hget] at hrq
        exact absurd hrq (by simp)
      | some lst =>
        rw [hget] at hrq
        rcases List.mem_map.mp hrq with ⟨en, hen, hren⟩
        have hdg1 : dictGet g.Props p.1 = some p.2 :=
          dictGet_of_mem_nodup _ _ _ hnd1 hp
        have hdg2 : dictGet p.2 q.1 = some q.2 :=
          dictGet_of_mem_nodup _ _ _ (hnd2 p hp) hq
        obtain ⟨r0, hr0, ha, hb, hc⟩ := hfwd p.1 p.2 q.1 q.2 hdg1 hdg2
        rw [hc] at hget
        have hlst : lst = [c2Entry r0] := by
          simp [dictGet] at hget
          exact hget.symm
        rw [hlst] at hen
        have hen' := List.mem_singleton.mp hen
        rw [← hren, hen']
        obtain ⟨g1, g2, g3, g4⟩ := hall r0 hr0
        have hrow : extractedRow p.1 q.1 v1 v2 (c2Entry r0) = r0 := by
          cases r0 with
          | mk f1 f2 f3 f4 f5 f6 => simp_all [extractedRow, c2Entry]
        rw [hrow]
        exact hr0
    · intro hr
      obtain ⟨np, hnp, htpn⟩ := hbwd r hr
      apply List.mem_flatMap.mpr
      refine ⟨(r.lift_to_node, np), mem_of_dictGet_eq_some _ _ _ hnp, ?_⟩
      apply List.mem_flatMap.mpr
      refine ⟨(r.lift_to_property, [(modelName v1, [c2Entry r])]),
        mem_of_dictGet_eq_some _ _ _ htpn, ?_⟩
      rw [show dictGet [(modelName v1, [c2Entry r])] (modelName v1) =
        some [c2Entry r] from by simp [dictGet]]
      apply List.mem_map.mpr
      refine ⟨c2Entry r, List.mem_singleton.mpr rfl, ?_⟩
      obtain ⟨g1, g2, g3, g4⟩ := hall r hr
      cases r with
      | mk f1 f2 f3 f4 f5 f6 => simp_all [extractedRow, c2Entry]

/-- Witness for the amended C2 on a one-row table: CCDIv2 as anchor,
extraction for CCDIv1 returns exactly the input row. -/
theorem c2_roundtrip_amended_witness :
    ∃ g out, convert_df_to_map_dict [c2Row] (modelName "2") = .ok g ∧
      extract_pairwise_mappings g (modelName "1") = .ok out ∧
      ∀ r, r ∈ out ↔ r ∈ [c2Row] :=
  c2_roundtrip_amended [c2Row] "1" "2" (by decide) (by decide) (by decide)

end ConvertMappings
